import Mathlib

/-!
# Synacor virtual machine (oscon_synacor_2012): shallow embedding

The Go sources `debugger.go` and `machine.go` implement a 15-bit-word virtual
machine.  Machine words are `uint16`; they are modelled as natural numbers with
explicit reduction modulo `65536` wherever the Go arithmetic can wrap.  The
address space `mem [modk + regc]uint16` is modelled as a function `Nat → Nat`
together with explicit bounds checks: every Go index expression `mem[i]` with
`i ≥ 32776` is a run-time panic and is modelled as a `Fault`.

Standard input is a list of runes shared by the `in` instruction and by the
command reader of the debugger; standard output is the list of what is printed.
The loops of `debugger` and of the standalone `machine` of `machine.go` are
given one iteration at a time, and as runs of at most `n` iterations.
-/

namespace Synacor

/-! ## Constants -/

/-- Go: `modk = 1 << 15`. -/
abbrev modk : Nat := 32768

/-- Go: `modm = modk - 1`. -/
abbrev modm : Nat := modk - 1

/-- Go: `regc = 8`. -/
abbrev regc : Nat := 8

/-- Length of the array `mem [modk + regc]uint16`. -/
abbrev memSize : Nat := modk + regc

abbrev op_halt : Nat := 0
abbrev op_set : Nat := 1
abbrev op_push : Nat := 2
abbrev op_pop : Nat := 3
abbrev op_eq : Nat := 4
abbrev op_gt : Nat := 5
abbrev op_jmp : Nat := 6
abbrev op_jt : Nat := 7
abbrev op_jf : Nat := 8
abbrev op_add : Nat := 9
abbrev op_mult : Nat := 10
abbrev op_mod : Nat := 11
abbrev op_and : Nat := 12
abbrev op_or : Nat := 13
abbrev op_not : Nat := 14
abbrev op_rmem : Nat := 15
abbrev op_wmem : Nat := 16
abbrev op_call : Nat := 17
abbrev op_ret : Nat := 18
abbrev op_out : Nat := 19
abbrev op_in : Nat := 20
abbrev op_noop : Nat := 21

/-- Truncation of a natural number to a Go `uint16`. -/
def w16 (n : Nat) : Nat := n % 65536

/-! ## Faults (Go panics) -/

/-- The ways in which the Go code can panic. -/
inductive Fault where
  /-- Run-time panic: `mem[i]` with `i` outside the array of 32776 words. -/
  | memIndex (i : Nat)
  /-- Run-time panic: `stk[len(stk)-1]` on an empty slice (index `-1`). -/
  | stkIndex
  /-- Run-time panic: integer divide by zero in `b % c`. -/
  | divideByZero
  /-- Go: `panic(fmt.Sprintf("unimplemented instr: mem[%v] = %v", st.pi, ins))`;
  the two fields are the two values that are formatted into the message. -/
  | unimplemented (addr ins : Nat)
  /-- Run-time panic in `bytesTouint16`: byte index outside the buffer. -/
  | byteIndex (i : Nat)
  /-- Run-time panic in `bytesTouint16`: word index outside the result slice. -/
  | wordIndex (i : Nat)
  /-- Run-time panic: slice expression `mem[lo:hi]` with bounds out of range. -/
  | sliceBounds (lo hi : Nat)
  deriving DecidableEq, Repr

/-! ## Machine state -/

/-- Go: `type state struct { mem [modk + regc]uint16; stk []uint16; pi uint16; fin bool }`.
The registers are the cells `modk .. modk + regc - 1` of `mem`.  The top of the
stack is the last element of `stk` (Go appends at the end). -/
structure state where
  mem : Nat → Nat
  stk : List Nat
  pi : Nat
  fin : Bool

/-- Contents of register `n`, that is of cell `modk + n`. -/
def reg (mem : Nat → Nat) (n : Nat) : Nat := mem (modk + n)

/-- Go index expression `mem[i]` used as a value. -/
def rd (mem : Nat → Nat) (i : Nat) : Except Fault Nat :=
  if i < memSize then .ok (mem i) else .error (.memIndex i)

/-- Go assignment `mem[i] = v`. -/
def wr (mem : Nat → Nat) (i v : Nat) : Except Fault (Nat → Nat) :=
  if i < memSize then .ok (fun j => if j = i then v else mem j) else .error (.memIndex i)

/-- Go (both files):
```
getval := func(n uint16) uint16 {
    if n < modk { return n }
    return mem[n]
}
``` -/
def getval (mem : Nat → Nat) (n : Nat) : Except Fault Nat :=
  if n < modk then .ok n else rd mem n

/-- Go: `stk[len(stk)-1]`. -/
def top (stk : List Nat) : Except Fault Nat :=
  match stk.getLast? with
  | some v => .ok v
  | none => .error .stkIndex

/-- Go: `fmt.Scanf("%c", &c)`: the next rune of the input, the variable keeping
its old value `c` when the input is exhausted. -/
def scanc (c : Nat) (inp : List Nat) : Nat × List Nat :=
  match inp with
  | [] => (c, [])
  | r :: rest => (r, rest)

/-- Go: the character that `fmt.Printf("%c", a)` writes for the `uint16` value
`a`: the character with code `a`, or U+FFFD (65533) when `a` is a surrogate code
point, 55296 to 57343. -/
def printedChar (a : Nat) : Nat :=
  if 55296 ≤ a ∧ a ≤ 57343 then 65533 else a

/-- Result of one call of `machine`: the new state, the input that is left and
the characters printed by this call. -/
structure outcome where
  st : state
  inp : List Nat
  out : List Nat

/-! ## The execution engine of `debugger.go` -/

/-- Go: `func machine(st *state)` of `debugger.go`: one fetch-decode-execute
cycle.  `inp` is the pending standard input (a sequence of runes); the result
carries the input that is left and the characters printed. -/
def machine (st : state) (inp : List Nat) : Except Fault outcome :=
  if st.fin then
    .ok ⟨st, inp, []⟩
  else do
    let ins ← rd st.mem st.pi
    let pi := w16 (st.pi + 1)
    if ins = op_halt then
      .ok ⟨{ st with pi := pi, fin := true }, inp, []⟩
    else if ins = op_set then do
      let a ← rd st.mem pi
      let b ← (rd st.mem (w16 (pi + 1))) >>= getval st.mem
      let mem ← wr st.mem a b
      .ok ⟨{ st with mem := mem, pi := w16 (pi + 2) }, inp, []⟩
    else if ins = op_push then do
      let a ← (rd st.mem pi) >>= getval st.mem
      .ok ⟨{ st with stk := st.stk ++ [a], pi := w16 (pi + 1) }, inp, []⟩
    else if ins = op_pop then do
      let a ← rd st.mem pi
      let v ← top st.stk
      let mem ← wr st.mem a v
      .ok ⟨{ st with mem := mem, stk := st.stk.dropLast, pi := w16 (pi + 1) }, inp, []⟩
    else if ins = op_eq then do
      let a ← rd st.mem pi
      let b ← (rd st.mem (w16 (pi + 1))) >>= getval st.mem
      let c ← (rd st.mem (w16 (pi + 2))) >>= getval st.mem
      let mem ← wr st.mem a (if b = c then 1 else 0)
      .ok ⟨{ st with mem := mem, pi := w16 (pi + 3) }, inp, []⟩
    else if ins = op_gt then do
      let a ← rd st.mem pi
      let b ← (rd st.mem (w16 (pi + 1))) >>= getval st.mem
      let c ← (rd st.mem (w16 (pi + 2))) >>= getval st.mem
      let mem ← wr st.mem a (if b > c then 1 else 0)
      .ok ⟨{ st with mem := mem, pi := w16 (pi + 3) }, inp, []⟩
    else if ins = op_jmp then do
      let a ← (rd st.mem pi) >>= getval st.mem
      .ok ⟨{ st with pi := a }, inp, []⟩
    else if ins = op_jt then do
      let a ← (rd st.mem pi) >>= getval st.mem
      let b ← (rd st.mem (w16 (pi + 1))) >>= getval st.mem
      .ok ⟨{ st with pi := if a ≠ 0 then b else w16 (pi + 2) }, inp, []⟩
    else if ins = op_jf then do
      let a ← (rd st.mem pi) >>= getval st.mem
      let b ← (rd st.mem (w16 (pi + 1))) >>= getval st.mem
      .ok ⟨{ st with pi := if a = 0 then b else w16 (pi + 2) }, inp, []⟩
    else if ins = op_add then do
      let a ← rd st.mem pi
      let b ← (rd st.mem (w16 (pi + 1))) >>= getval st.mem
      let c ← (rd st.mem (w16 (pi + 2))) >>= getval st.mem
      let mem ← wr st.mem a (w16 (b + c))
      let mem ← wr mem a (mem a &&& modm)
      .ok ⟨{ st with mem := mem, pi := w16 (pi + 3) }, inp, []⟩
    else if ins = op_mult then do
      let a ← rd st.mem pi
      let b ← (rd st.mem (w16 (pi + 1))) >>= getval st.mem
      let c ← (rd st.mem (w16 (pi + 2))) >>= getval st.mem
      let mem ← wr st.mem a (w16 (b * c))
      let mem ← wr mem a (mem a &&& modm)
      .ok ⟨{ st with mem := mem, pi := w16 (pi + 3) }, inp, []⟩
    else if ins = op_mod then do
      let a ← rd st.mem pi
      let b ← (rd st.mem (w16 (pi + 1))) >>= getval st.mem
      let c ← (rd st.mem (w16 (pi + 2))) >>= getval st.mem
      if c = 0 then throw Fault.divideByZero
      let mem ← wr st.mem a (b % c)
      .ok ⟨{ st with mem := mem, pi := w16 (pi + 3) }, inp, []⟩
    else if ins = op_and then do
      let a ← rd st.mem pi
      let b ← (rd st.mem (w16 (pi + 1))) >>= getval st.mem
      let c ← (rd st.mem (w16 (pi + 2))) >>= getval st.mem
      let mem ← wr st.mem a (b &&& c)
      .ok ⟨{ st with mem := mem, pi := w16 (pi + 3) }, inp, []⟩
    else if ins = op_or then do
      let a ← rd st.mem pi
      let b ← (rd st.mem (w16 (pi + 1))) >>= getval st.mem
      let c ← (rd st.mem (w16 (pi + 2))) >>= getval st.mem
      let mem ← wr st.mem a (b ||| c)
      .ok ⟨{ st with mem := mem, pi := w16 (pi + 3) }, inp, []⟩
    else if ins = op_not then do
      let a ← rd st.mem pi
      let b ← (rd st.mem (w16 (pi + 1))) >>= getval st.mem
      let mem ← wr st.mem a (w16 (b ^^^ 65535))
      let mem ← wr mem a (mem a &&& modm)
      .ok ⟨{ st with mem := mem, pi := w16 (pi + 2) }, inp, []⟩
    else if ins = op_rmem then do
      let a ← rd st.mem pi
      let b ← (rd st.mem (w16 (pi + 1))) >>= getval st.mem
      let v ← rd st.mem b
      let mem ← wr st.mem a v
      .ok ⟨{ st with mem := mem, pi := w16 (pi + 2) }, inp, []⟩
    else if ins = op_wmem then do
      let a ← (rd st.mem pi) >>= getval st.mem
      let b ← (rd st.mem (w16 (pi + 1))) >>= getval st.mem
      let mem ← wr st.mem a b
      .ok ⟨{ st with mem := mem, pi := w16 (pi + 2) }, inp, []⟩
    else if ins = op_call then do
      let a ← (rd st.mem pi) >>= getval st.mem
      .ok ⟨{ st with stk := st.stk ++ [w16 (pi + 1)], pi := a }, inp, []⟩
    else if ins = op_ret then do
      let v ← top st.stk
      .ok ⟨{ st with stk := st.stk.dropLast, pi := v }, inp, []⟩
    else if ins = op_out then do
      let a ← (rd st.mem pi) >>= getval st.mem
      .ok ⟨{ st with pi := w16 (pi + 1) }, inp, [printedChar a]⟩
    else if ins = op_in then do
      let a ← rd st.mem pi
      let (c, inp1) := scanc 0 inp
      let (c, inp2) := if c = 13 then (10, (scanc c inp1).2) else (c, inp1)
      let mem ← wr st.mem a (w16 c)
      .ok ⟨{ st with mem := mem, pi := w16 (pi + 1) }, inp2, []⟩
    else if ins = op_noop then
      .ok ⟨{ st with pi := pi }, inp, []⟩
    else
      .error (.unimplemented pi ins)

/-- Go (`main` of `debugger.go`): `st := state{}; copy(st.mem[:], bytesTouint16(prog))`,
given the decoded words: the image is copied to the start of the zeroed address
space (`copy` stops at the end of the shorter of the two). -/
def load (prog : List Nat) : state :=
  { mem := fun i => if i < memSize then prog.getD i 0 else 0
    stk := []
    pi := 0
    fin := false }

/-- Text of the panic raised for a word that is no opcode.
Go: `fmt.Sprintf("unimplemented instr: mem[%v] = %v", st.pi, ins)`. -/
def unimplementedMessage (addr ins : Nat) : String :=
  "unimplemented instr: mem[" ++ toString addr ++ "] = " ++ toString ins

/-! ## The word codec -/

/-- Go index expression `b[i]` on the byte slice `b`. -/
def byteAt (b : List Nat) (i : Nat) : Except Fault Nat :=
  match b[i]? with
  | some v => .ok v
  | none => .error (.byteIndex i)

/-- Go assignment `r[i] = v` on the word slice `r`. -/
def setWord (r : List Nat) (i v : Nat) : Except Fault (List Nat) :=
  if i < r.length then .ok (r.set i v) else .error (.wordIndex i)

/-- The loop of `bytesTouint16`, entered with index `i` and result slice `r`:
```
for i := 0; i < len(b); i += 2 {
    r[i/2] = (uint16(b[i+1]) << 8) | uint16(b[i])
}
``` -/
def bytesTouint16.loop (b : List Nat) (i : Nat) (r : List Nat) : Except Fault (List Nat) :=
  if i < b.length then do
    let hi ← byteAt b (i + 1)
    let lo ← byteAt b i
    let r ← setWord r (i / 2) (w16 (w16 hi <<< 8) ||| w16 lo)
    bytesTouint16.loop b (i + 2) r
  else
    .ok r
termination_by b.length - i

/-- Go (both files): `func bytesTouint16(b []byte) []uint16`, with
`r := make([]uint16, len(b)/2)` before the loop.  Bytes are natural numbers
below 256. -/
def bytesTouint16 (b : List Nat) : Except Fault (List Nat) :=
  bytesTouint16.loop b 0 (List.replicate (b.length / 2) 0)

/-- Little-endian encoding used to state the round trip (the repository has no
encoder): each word `w` becomes the byte pair `(w % 256, w / 256)`. -/
def encodeWords : List Nat → List Nat
  | [] => []
  | w :: ws => (w % 256) :: (w / 256) :: encodeWords ws

/-- The word that the loop body computes for the pair of bytes number `j`. -/
def word (b : List Nat) (j : Nat) : Nat :=
  w16 (w16 (b.getD (2 * j + 1) 0) <<< 8) ||| w16 (b.getD (2 * j) 0)

/-! ## The debugger of `debugger.go` -/

/-- Go: `var opnames = map[uint16]string{...}`, as the list of its entries. -/
def opnamesTable : List (Nat × String) :=
  [(op_halt, "op_halt"), (op_set, "op_set"), (op_push, "op_push"), (op_pop, "op_pop"),
   (op_eq, "op_eq"), (op_gt, "op_gt"), (op_jmp, "op_jmp"), (op_jt, "op_jt"),
   (op_jf, "op_jf"), (op_add, "op_add"), (op_mult, "op_mult"), (op_mod, "op_mod"),
   (op_and, "op_and"), (op_or, "op_or"), (op_not, "op_not"), (op_rmem, "op_rmem"),
   (op_wmem, "op_wmem"), (op_call, "op_call"), (op_ret, "op_ret"), (op_out, "op_out"),
   (op_in, "op_in"), (op_noop, "op_noop")]

/-- Go: the map lookup `opnames[ins]`; a word that is no key yields the empty
string. -/
def opnames (ins : Nat) : String := (opnamesTable.lookup ins).getD ""

/-- Go: `var opargs = map[uint16]uint16{...}`, as the list of its entries. -/
def opargsTable : List (Nat × Nat) :=
  [(op_halt, 0), (op_set, 2), (op_push, 1), (op_pop, 1), (op_eq, 3), (op_gt, 3), (op_jmp, 1),
   (op_jt, 2), (op_jf, 2), (op_add, 3), (op_mult, 3), (op_mod, 3), (op_and, 3), (op_or, 3),
   (op_not, 2), (op_rmem, 2), (op_wmem, 2), (op_call, 1), (op_ret, 0), (op_out, 1), (op_in, 1),
   (op_noop, 0)]

/-- Go: the map lookup `opargs[ins]`; a word that is no key yields 0. -/
def opargs (ins : Nat) : Nat := (opargsTable.lookup ins).getD 0

/-- Go slice expression `mem[lo:hi]` on the array of 32776 words. -/
def slice (mem : Nat → Nat) (lo hi : Nat) : Except Fault (List Nat) :=
  if hi ≤ memSize ∧ lo ≤ hi then
    .ok ((List.range (hi - lo)).map (fun k => mem (lo + k)))
  else
    .error (.sliceBounds lo hi)

/-- Go: the closure `argsString` of `debugger`: a word below `modk` is printed
as a decimal number, any other word `e` as `<e - modk>`. -/
def argsString (s : List Nat) : List String :=
  s.map (fun e => if e < modk then toString e else "<" ++ toString (w16 (e - modk)) ++ ">")

/-- Go `%v` formatting of a slice: the elements separated by blanks, in square
brackets. -/
def fmtSlice (l : List String) : String :=
  "[" ++ " ".intercalate l ++ "]"

/-- One line of the listing.
Go: `fmt.Printf("%v: %v\n", opnames[pii], argsString(st.mem[pid+1:pid+1+pia]))`. -/
def disline (pii : Nat) (args : List Nat) : String :=
  opnames pii ++ ": " ++ fmtSlice (argsString args) ++ "\n"

/-- Go: the loop `disloop` of the command `d`, entered with `pid`; the result is
the list of the lines printed.
```
for {
    pii := st.mem[pid]
    pia := opargs[pii]
    fmt.Printf(...)
    pid += 1 + pia
    switch pii { case op_halt, op_ret: break disloop }
}
``` -/
def disloop (mem : Nat → Nat) (pid : Nat) : Except Fault (List String) :=
  if hlt : pid < memSize then
    let pii := mem pid
    let pia := opargs pii
    match slice mem (w16 (pid + 1)) (w16 (pid + 1 + pia)) with
    | .error e => .error e
    | .ok args =>
      if pii = op_halt ∨ pii = op_ret then
        .ok [disline pii args]
      else
        match disloop mem (w16 (pid + 1 + pia)) with
        | .error e => .error e
        | .ok rest => .ok (disline pii args :: rest)
  else
    .error (.memIndex pid)
termination_by memSize - pid
decreasing_by
  have h1 : pid < 32776 := hlt
  have h2 : opargs (mem pid) ≤ 3 := by
    simp only [opargs, opargsTable, List.lookup]
    repeat' split
    all_goals decide
  have h3 : w16 (pid + 1 + opargs (mem pid)) = pid + 1 + opargs (mem pid) :=
    Nat.mod_eq_of_lt (by omega)
  rw [h3]
  show 32776 - (pid + 1 + opargs (mem pid)) < 32776 - pid
  omega

/-- Go: the text printed by the command `w`.
`fmt.Printf("pi: %v\nstk: %v\nregs: %v\n", st.pi, st.stk, st.mem[modk:])`. -/
def whereText (st : state) : String :=
  "pi: " ++ toString st.pi ++ "\nstk: " ++ fmtSlice (st.stk.map toString) ++ "\nregs: "
    ++ fmtSlice (((List.range regc).map (fun k => st.mem (modk + k))).map toString) ++ "\n"

/-- The function currently held by the variable `doBreak`: either `doBreakDef`
or the closure installed by the command `cf`, with the current value of its
captured counter `cs`. -/
inductive breaker where
  | doBreakDef
  | doBreakCf (cs : Int)
  deriving DecidableEq, Repr

/-- Go:
```
doBreakDef := func() bool {
    switch st.mem[st.pi] { case op_out: return false }
    return true
}
``` -/
def doBreakDef (st : state) : Except Fault Bool := do
  let ins ← rd st.mem st.pi
  if ins = op_out then .ok false else .ok true

/-- A call `doBreak()`: the result and the function that `doBreak` holds
afterwards.  For the closure of `cf`:
```
cso := cs
switch st.mem[st.pi] { case op_call: cs += 1; case op_ret: cs -= 1 }
if cso == 0 { doBreak = doBreakDef; return true }
return false
``` -/
def doBreak (f : breaker) (st : state) : Except Fault (Bool × breaker) :=
  match f with
  | .doBreakDef => do
    let b ← doBreakDef st
    .ok (b, .doBreakDef)
  | .doBreakCf cs => do
    let cso := cs
    let ins ← rd st.mem st.pi
    let cs := if ins = op_call then cs + 1 else if ins = op_ret then cs - 1 else cs
    if cso = 0 then .ok (true, .doBreakDef) else .ok (false, .doBreakCf cs)

/-- Go: `readLine()`: the runes of standard input up to the next newline, which
is consumed as well, without a final carriage return; the second component is
the input that is left. -/
def readLine (inp : List Nat) : List Nat × List Nat :=
  let t := inp.takeWhile (fun r => r ≠ 10)
  let rest := (inp.dropWhile (fun r => r ≠ 10)).tail
  (if t.getLast? = some 13 then t.dropLast else t, rest)

/-- What is written to standard output: a character printed by the machine or a
text printed by the debugger. -/
inductive printed where
  | chr (c : Nat)
  | str (s : String)
  deriving DecidableEq, Repr

/-- The variables of `debugger` between two iterations of its loop, with the
pending standard input. -/
structure dbg where
  st : state
  doBreak : breaker
  inp : List Nat

/-- Record of one iteration of the loop of `debugger`: the program counter at
its start, whether `readLine` was called (the debugger paused), whether
`machine(st)` was called, what was printed, and the variables afterwards. -/
structure turn where
  pc : Nat
  paused : Bool
  ran : Bool
  out : List printed
  next : dbg

/-- The command line `w`. -/
abbrev cmd_w : List Nat := [119]

/-- The command line `d`. -/
abbrev cmd_d : List Nat := [100]

/-- The command line `cf`. -/
abbrev cmd_cf : List Nat := [99, 102]

/-- Go: the `switch cmd` of `debugger` and what follows it in the iteration,
for the command `cmd` read while paused, `rest` being the input left after the
line. -/
def command (cmd : List Nat) (d : dbg) (rest : List Nat) : Except Fault turn :=
  if cmd = cmd_w then
    .ok ⟨d.st.pi, true, false, [.str (whereText d.st)], { d with inp := rest }⟩
  else if cmd = cmd_d then do
    let lines ← disloop d.st.mem d.st.pi
    .ok ⟨d.st.pi, true, false, lines.map .str, { d with inp := rest }⟩
  else if cmd = cmd_cf then
    .ok ⟨d.st.pi, true, false, [], { d with doBreak := .doBreakCf 1, inp := rest }⟩
  else do
    let o ← machine d.st rest
    .ok ⟨d.st.pi, true, true, o.out.map .chr, { st := o.st, doBreak := d.doBreak, inp := o.inp }⟩

/-- One iteration of `for !st.fin { if doBreak() { ... } machine(st) }`;
`none` when the loop is left because the machine has halted. -/
def debuggerIter (d : dbg) : Except Fault (Option turn) :=
  if d.st.fin then
    .ok none
  else do
    let (b, f) ← doBreak d.doBreak d.st
    if b then do
      let (cmd, rest) := readLine d.inp
      let t ← command cmd { d with doBreak := f } rest
      .ok (some t)
    else do
      let o ← machine d.st d.inp
      .ok (some ⟨d.st.pi, false, true, o.out.map .chr, { st := o.st, doBreak := f, inp := o.inp }⟩)

/-- Go: `func debugger(st *state)`, at most `n` iterations of its loop: the
records of the iterations performed. -/
def debugger : Nat → dbg → Except Fault (List turn)
  | 0, _ => .ok []
  | n + 1, d =>
    match debuggerIter d with
    | .error e => .error e
    | .ok none => .ok []
    | .ok (some t) =>
      match debugger n t.next with
      | .error e => .error e
      | .ok ts => .ok (t :: ts)

/-- Go: the start of `debugger`: `doBreak := doBreakDef`, on the state `st` and
the standard input `inp`. -/
def debuggerStart (st : state) (inp : List Nat) : dbg :=
  { st := st, doBreak := .doBreakDef, inp := inp }

/-- The operand words of the instruction at address `a`: the `opargs` words
that follow the opcode word. -/
def operands (mem : Nat → Nat) (a : Nat) : List Nat :=
  (List.range (opargs (mem a))).map (fun k => mem (a + 1 + k))

/-- Linear decoding: `addrs` is the list of the addresses of the instructions
met from address `a` on, each instruction occupying `1 + opargs` words inside
the address space, up to and including the first `halt` or `ret`. -/
def decodes (mem : Nat → Nat) : Nat → List Nat → Bool
  | _, [] => false
  | a, [b] => decide (b = a ∧ a < memSize ∧ (mem a = op_halt ∨ mem a = op_ret))
  | a, b :: c :: rest =>
    decide (b = a ∧ a + 1 + opargs (mem a) ≤ memSize ∧ ¬ (mem a = op_halt ∨ mem a = op_ret))
      && decodes mem (a + 1 + opargs (mem a)) (c :: rest)

/-- The variables of the debugger and the standard input after the iterations
recorded in `ts`, which started from `d`. -/
def endDbg (d : dbg) (ts : List turn) : dbg :=
  match ts.getLast? with
  | some t => t.next
  | none => d

/-- The characters among what was printed, that is the output of the machine
without the texts of the debugger. -/
def charsOf : List printed → List Nat
  | [] => []
  | .chr c :: ps => c :: charsOf ps
  | .str _ :: ps => charsOf ps

/-- The characters that the machine printed during the iterations `ts`. -/
def printedBy : List turn → List Nat
  | [] => []
  | t :: ts => charsOf t.out ++ printedBy ts

/-- The machine on its own, fed the standard input as it stands at each moment:
from the state `s` and the input `inp`, for every iteration recorded in `ts`
that paused, the command line is taken off the input, and for every iteration
that ran an instruction, `machine` is applied once to the current state and the
current input, which leaves the next state and the next input.  The result is
the final state, the final input, the characters printed by the machine and the
number of applications of `machine`.  Of the records only the two flags
`paused` and `ran` are used. -/
def replay : state → List Nat → List turn → Except Fault (state × List Nat × List Nat × Nat)
  | s, inp, [] => .ok (s, inp, [], 0)
  | s, inp, t :: ts =>
    if t.ran then
      match machine s (if t.paused then (readLine inp).2 else inp) with
      | .error e => .error e
      | .ok o =>
        match replay o.st o.inp ts with
        | .error e => .error e
        | .ok r => .ok (r.1, r.2.1, o.out ++ r.2.2.1, r.2.2.2 + 1)
    else
      replay s (if t.paused then (readLine inp).2 else inp) ts

/-- Example configuration: the debugger at the start of the program
`in r0; in r1; out r0; halt`, standard input holding the command line `w`, an
empty line, the character `A` for the program, the command line `cf` and the
character `B` for the program. -/
def whereDemo : dbg :=
  debuggerStart (load [20, 32768, 20, 32769, 19, 32768, 0])
    [119, 10, 10, 65, 99, 102, 10, 66]

/-! ## The standalone engine of `machine.go` -/

/-- The local variables of `func machine(prog []uint16)` of `machine.go`. -/
structure vm where
  mem : Nat → Nat
  stk : List Nat
  pi : Nat
  dbgmd : Bool

/-- How one iteration of the loop of `machine.go` ends: with the next iteration
(`next`: the variables, the input left, the characters printed, the lines
written to standard error) or with the `return` of the `halt` case. -/
inductive flow where
  | next (v : vm) (inp : List Nat) (out : List Nat) (err : List String)
  | returned (v : vm) (inp : List Nat) (err : List String)

/-- Go: the line written to standard error before a `call` in trace mode.
`fmt.Fprintf(os.Stderr, " / mem[%v] = %v .. %v\n", pi, mem[pi], mem[pi+1:pi+4])`. -/
def traceText (pi ins : Nat) (ws : List Nat) : String :=
  " / mem[" ++ toString pi ++ "] = " ++ toString ins ++ " .. " ++ fmtSlice (ws.map toString)
    ++ "\n"

/-- One iteration of the loop `for { ... }` of `machine.go`.  The parameter `tok`
stands for the library call `fmt.Scanf("%s", nil)` of the two input hooks: what
it leaves of the input, or its panic. -/
def standaloneIter (tok : List Nat → Except Fault (List Nat)) (v : vm) (inp : List Nat) :
    Except Fault flow := do
  let err ←
    if v.dbgmd then do
      let w ← rd v.mem v.pi
      if w = op_call then do
        let ws ← slice v.mem (w16 (v.pi + 1)) (w16 (v.pi + 4))
        pure [traceText v.pi w ws]
      else pure []
    else pure []
  let ins ← rd v.mem v.pi
  let pi := w16 (v.pi + 1)
  if ins = op_halt then
    .ok (.returned { v with pi := pi } inp err)
  else if ins = op_set then do
    let a ← rd v.mem pi
    let b ← (rd v.mem (w16 (pi + 1))) >>= getval v.mem
    let mem ← wr v.mem a b
    .ok (.next { v with mem := mem, pi := w16 (pi + 2) } inp [] err)
  else if ins = op_push then do
    let a ← (rd v.mem pi) >>= getval v.mem
    .ok (.next { v with stk := v.stk ++ [a], pi := w16 (pi + 1) } inp [] err)
  else if ins = op_pop then do
    let a ← rd v.mem pi
    let x ← top v.stk
    let mem ← wr v.mem a x
    .ok (.next { v with mem := mem, stk := v.stk.dropLast, pi := w16 (pi + 1) } inp [] err)
  else if ins = op_eq then do
    let a ← rd v.mem pi
    let b ← (rd v.mem (w16 (pi + 1))) >>= getval v.mem
    let c ← (rd v.mem (w16 (pi + 2))) >>= getval v.mem
    let mem ← wr v.mem a (if b = c then 1 else 0)
    .ok (.next { v with mem := mem, pi := w16 (pi + 3) } inp [] err)
  else if ins = op_gt then do
    let a ← rd v.mem pi
    let b ← (rd v.mem (w16 (pi + 1))) >>= getval v.mem
    let c ← (rd v.mem (w16 (pi + 2))) >>= getval v.mem
    let mem ← wr v.mem a (if b > c then 1 else 0)
    .ok (.next { v with mem := mem, pi := w16 (pi + 3) } inp [] err)
  else if ins = op_jmp then do
    let a ← (rd v.mem pi) >>= getval v.mem
    .ok (.next { v with pi := a } inp [] err)
  else if ins = op_jt then do
    let a ← (rd v.mem pi) >>= getval v.mem
    let b ← (rd v.mem (w16 (pi + 1))) >>= getval v.mem
    .ok (.next { v with pi := if a ≠ 0 then b else w16 (pi + 2) } inp [] err)
  else if ins = op_jf then do
    let a ← (rd v.mem pi) >>= getval v.mem
    let b ← (rd v.mem (w16 (pi + 1))) >>= getval v.mem
    .ok (.next { v with pi := if a = 0 then b else w16 (pi + 2) } inp [] err)
  else if ins = op_add then do
    let a ← rd v.mem pi
    let b ← (rd v.mem (w16 (pi + 1))) >>= getval v.mem
    let c ← (rd v.mem (w16 (pi + 2))) >>= getval v.mem
    let mem ← wr v.mem a (w16 (b + c))
    let mem ← wr mem a (mem a &&& modm)
    .ok (.next { v with mem := mem, pi := w16 (pi + 3) } inp [] err)
  else if ins = op_mult then do
    let a ← rd v.mem pi
    let b ← (rd v.mem (w16 (pi + 1))) >>= getval v.mem
    let c ← (rd v.mem (w16 (pi + 2))) >>= getval v.mem
    let mem ← wr v.mem a (w16 (b * c))
    let mem ← wr mem a (mem a &&& modm)
    .ok (.next { v with mem := mem, pi := w16 (pi + 3) } inp [] err)
  else if ins = op_mod then do
    let a ← rd v.mem pi
    let b ← (rd v.mem (w16 (pi + 1))) >>= getval v.mem
    let c ← (rd v.mem (w16 (pi + 2))) >>= getval v.mem
    if c = 0 then throw Fault.divideByZero
    let mem ← wr v.mem a (b % c)
    .ok (.next { v with mem := mem, pi := w16 (pi + 3) } inp [] err)
  else if ins = op_and then do
    let a ← rd v.mem pi
    let b ← (rd v.mem (w16 (pi + 1))) >>= getval v.mem
    let c ← (rd v.mem (w16 (pi + 2))) >>= getval v.mem
    let mem ← wr v.mem a (b &&& c)
    .ok (.next { v with mem := mem, pi := w16 (pi + 3) } inp [] err)
  else if ins = op_or then do
    let a ← rd v.mem pi
    let b ← (rd v.mem (w16 (pi + 1))) >>= getval v.mem
    let c ← (rd v.mem (w16 (pi + 2))) >>= getval v.mem
    let mem ← wr v.mem a (b ||| c)
    .ok (.next { v with mem := mem, pi := w16 (pi + 3) } inp [] err)
  else if ins = op_not then do
    let a ← rd v.mem pi
    let b ← (rd v.mem (w16 (pi + 1))) >>= getval v.mem
    let mem ← wr v.mem a (w16 (b ^^^ 65535))
    let mem ← wr mem a (mem a &&& modm)
    .ok (.next { v with mem := mem, pi := w16 (pi + 2) } inp [] err)
  else if ins = op_rmem then do
    let a ← rd v.mem pi
    let b ← (rd v.mem (w16 (pi + 1))) >>= getval v.mem
    let x ← rd v.mem b
    let mem ← wr v.mem a x
    .ok (.next { v with mem := mem, pi := w16 (pi + 2) } inp [] err)
  else if ins = op_wmem then do
    let a ← (rd v.mem pi) >>= getval v.mem
    let b ← (rd v.mem (w16 (pi + 1))) >>= getval v.mem
    let mem ← wr v.mem a b
    .ok (.next { v with mem := mem, pi := w16 (pi + 2) } inp [] err)
  else if ins = op_call then do
    let a ← (rd v.mem pi) >>= getval v.mem
    .ok (.next { v with stk := v.stk ++ [w16 (pi + 1)], pi := a } inp [] err)
  else if ins = op_ret then do
    let x ← top v.stk
    .ok (.next { v with stk := v.stk.dropLast, pi := x } inp [] err)
  else if ins = op_out then do
    let a ← (rd v.mem pi) >>= getval v.mem
    .ok (.next { v with pi := w16 (pi + 1) } inp [printedChar a] err)
  else if ins = op_in then do
    let a ← rd v.mem pi
    let (c, inp1) := scanc 0 inp
    let (inp2, dbgmd) ←
      if c = 37 then do
        let i ← tok inp1
        pure (i, !v.dbgmd)
      else pure (inp1, v.dbgmd)
    let (inp3, mem) ←
      if c = 43 then do
        let i ← tok inp2
        let m ← wr v.mem (memSize - 1) 1
        pure (i, m)
      else pure (inp2, v.mem)
    let (c, inp4) := if c = 13 then (10, (scanc c inp3).2) else (c, inp3)
    let mem ← wr mem a (w16 c)
    .ok (.next { v with mem := mem, pi := w16 (pi + 1), dbgmd := dbgmd } inp4 [] err)
  else if ins = op_noop then
    .ok (.next { v with pi := pi } inp [] err)
  else
    .error (.unimplemented pi ins)

/-- Go: `func machine(prog []uint16)` of `machine.go`, at most `n` iterations of
its loop, from the variables `v`: the variables and the input at the end, the
characters printed so far (after `out`), and whether the function has
returned. -/
def standalone (tok : List Nat → Except Fault (List Nat)) :
    Nat → vm → List Nat → List Nat → Except Fault (vm × List Nat × List Nat × Bool)
  | 0, v, inp, out => .ok (v, inp, out, false)
  | n + 1, v, inp, out =>
    match standaloneIter tok v inp with
    | .error e => .error e
    | .ok (.returned v2 inp2 _) => .ok (v2, inp2, out, true)
    | .ok (.next v2 inp2 o _) => standalone tok n v2 inp2 (out ++ o)

/-- Go: the start of `machine` in `machine.go`: `mem` zeroed then
`copy(mem[:], prog)`, `stk := []uint16{}`, `pi := 0`, `dbgmd := false`. -/
def boot (prog : List Nat) : vm :=
  { mem := fun i => if i < memSize then prog.getD i 0 else 0
    stk := []
    pi := 0
    dbgmd := false }

/-- Repeated application of `machine` of `debugger.go`: `n` calls from the state
`s`, the output being appended to `out`. -/
def steps : Nat → state → List Nat → List Nat → Except Fault (state × List Nat × List Nat)
  | 0, s, inp, out => .ok (s, inp, out)
  | n + 1, s, inp, out =>
    match machine s inp with
    | .error e => .error e
    | .ok o => steps n o.st o.inp (out ++ o.out)

/-- No `in` instruction among the next `n` instructions executed from `s` finds
the character `%` (37) or `+` (43) at the head of the input. -/
def hookFree : Nat → state → List Nat → Bool
  | 0, _, _ => true
  | n + 1, s, inp =>
    decide (¬ (s.fin = false ∧ s.mem s.pi = op_in ∧
      (inp.head? = some 37 ∨ inp.head? = some 43))) &&
    match machine s inp with
    | .ok o => hookFree n o.st o.inp
    | .error _ => true

/-- The variables of `machine.go`, seen as a state of `debugger.go`; `fin`
records whether the function has returned. -/
def vm.view (v : vm) (fin : Bool) : state :=
  { mem := v.mem, stk := v.stk, pi := v.pi, fin := fin }

/-- The end of an iteration of `machine.go`, seen as the outcome of a step of
`debugger.go`. -/
def flow.view : flow → outcome
  | .next v inp out _ => ⟨v.view false, inp, out⟩
  | .returned v inp _ => ⟨v.view true, inp, []⟩

/-- The iteration wrote nothing to standard error and left trace mode off. -/
def flow.quiet : flow → Prop
  | .next v _ _ err => v.dbgmd = false ∧ err = []
  | .returned v _ err => v.dbgmd = false ∧ err = []

/-- The result of `standalone`, seen as a result of `steps`. -/
def runView (r : vm × List Nat × List Nat × Bool) : state × List Nat × List Nat :=
  (r.1.view r.2.2.2, r.2.1, r.2.2.1)

/-- Example configuration: the debugger at the start of the program
`call 5; out 65; halt` whose function at address 5 is `noop; ret`, with the
command lines empty, `cf`, `w` on standard input. -/
def cfThenWhere : dbg :=
  debuggerStart (load [17, 5, 19, 65, 0, 21, 18]) [10, 99, 102, 10, 119, 10]

/-! ## Basic facts about the primitives -/

theorem rd_ok (mem : Nat → Nat) (i : Nat) (h : i < memSize) : rd mem i = .ok (mem i) := by
  simp [rd, h]

theorem rd_err (mem : Nat → Nat) (i : Nat) (h : memSize ≤ i) :
    rd mem i = .error (.memIndex i) := by
  have : ¬ i < memSize := by omega
  simp [rd, this]

theorem wr_ok (mem : Nat → Nat) (i v : Nat) (h : i < memSize) :
    wr mem i v = .ok (fun j => if j = i then v else mem j) := by
  simp [wr, h]

theorem wr_err (mem : Nat → Nat) (i v : Nat) (h : memSize ≤ i) :
    wr mem i v = .error (.memIndex i) := by
  have : ¬ i < memSize := by omega
  simp [wr, this]

theorem getval_lit (mem : Nat → Nat) (n : Nat) (h : n < modk) : getval mem n = .ok n := by
  simp [getval, h]

theorem getval_reg (mem : Nat → Nat) (n : Nat) (h1 : modk ≤ n) (h2 : n < memSize) :
    getval mem n = .ok (mem n) := by
  have : ¬ n < modk := by omega
  simp [getval, this, rd, h2]

theorem getval_ok_lt (mem : Nat → Nat) (n x : Nat) (h : getval mem n = .ok x) :
    n < memSize := by
  unfold getval at h
  split at h
  · rename_i h'
    have h2 : n < 32768 := h'
    show n < 32776
    omega
  · unfold rd at h
    split at h
    · assumption
    · cases h

theorem w16_small (n : Nat) (h : n < 65536) : w16 n = n := Nat.mod_eq_of_lt h

theorem top_concat (l : List Nat) (v : Nat) : top (l ++ [v]) = .ok v := by
  simp [top]

theorem top_nil : top [] = .error .stkIndex := rfl

/-! ## Arithmetic on 16-bit words followed by the 15-bit mask -/

theorem and_modm (n : Nat) : n &&& modm = n % 32768 :=
  Nat.and_pow_two_sub_one_eq_mod n 15

theorem mask_w16 (n : Nat) : w16 n &&& modm = n % 32768 := by
  rw [and_modm, w16]
  exact Nat.mod_mod_of_dvd n (by decide)

theorem xor_low (x : Nat) (h : x < 32768) : x ^^^ 32767 = 32767 - x := by
  have key := @BitVec.toNat_not 15 (BitVec.ofNat 15 x)
  have hx : (BitVec.ofNat 15 x).toNat = x := by
    simp [BitVec.toNat_ofNat]; omega
  rw [hx] at key
  have h2 : (~~~ (BitVec.ofNat 15 x)).toNat = 32767 ^^^ x := by
    show (BitVec.allOnes 15 ^^^ BitVec.ofNat 15 x).toNat = _
    rw [BitVec.toNat_xor, hx]
    rfl
  rw [h2] at key
  rw [Nat.xor_comm]
  simpa using key

theorem not_wrap (x : Nat) (h : x < 32768) : w16 (x ^^^ 65535) &&& modm = 32767 - x := by
  rw [mask_w16, ← and_modm, Nat.and_xor_distrib_right, and_modm, Nat.mod_eq_of_lt h]
  exact xor_low x h

/-! ## One step of `machine`, opcode by opcode -/

/-- One step at an `add`. -/
theorem machine_add (s : state) (inp : List Nat) (x y : Nat)
    (hfin : s.fin = false) (hop : s.mem s.pi = op_add) (hp : s.pi + 3 < memSize)
    (hdst : s.mem (s.pi + 1) < memSize)
    (hx : getval s.mem (s.mem (s.pi + 2)) = .ok x)
    (hy : getval s.mem (s.mem (s.pi + 3)) = .ok y) :
    machine s inp = .ok ⟨{ s with
      mem := fun j => if j = s.mem (s.pi + 1) then w16 (x + y) &&& modm else s.mem j,
      pi := s.pi + 4 }, inp, []⟩ := by
  have hp' : s.pi + 3 < 32776 := hp
  have e0 : s.pi < memSize := show s.pi < 32776 by omega
  have e1 : s.pi + 1 < memSize := show s.pi + 1 < 32776 by omega
  have e2 : s.pi + 2 < memSize := show s.pi + 2 < 32776 by omega
  have w1 : w16 (s.pi + 1) = s.pi + 1 := w16_small _ (by omega)
  have w2 : w16 (s.pi + 1 + 1) = s.pi + 2 := w16_small _ (by omega)
  have w3 : w16 (s.pi + 1 + 2) = s.pi + 3 := w16_small _ (by omega)
  have w4 : w16 (s.pi + 1 + 3) = s.pi + 4 := w16_small _ (by omega)
  simp only [machine, hfin, rd_ok _ _ e0, hop, w1, w2, w3, w4, rd_ok _ _ e1, rd_ok _ _ e2,
    rd_ok _ _ hp, hx, hy, wr_ok _ _ _ hdst, bind, Except.bind, pure, Except.pure]
  simp
  funext j
  split_ifs <;> rfl

/-- One step at a `mult`. -/
theorem machine_mult (s : state) (inp : List Nat) (x y : Nat)
    (hfin : s.fin = false) (hop : s.mem s.pi = op_mult) (hp : s.pi + 3 < memSize)
    (hdst : s.mem (s.pi + 1) < memSize)
    (hx : getval s.mem (s.mem (s.pi + 2)) = .ok x)
    (hy : getval s.mem (s.mem (s.pi + 3)) = .ok y) :
    machine s inp = .ok ⟨{ s with
      mem := fun j => if j = s.mem (s.pi + 1) then w16 (x * y) &&& modm else s.mem j,
      pi := s.pi + 4 }, inp, []⟩ := by
  have hp' : s.pi + 3 < 32776 := hp
  have e0 : s.pi < memSize := show s.pi < 32776 by omega
  have e1 : s.pi + 1 < memSize := show s.pi + 1 < 32776 by omega
  have e2 : s.pi + 2 < memSize := show s.pi + 2 < 32776 by omega
  have w1 : w16 (s.pi + 1) = s.pi + 1 := w16_small _ (by omega)
  have w2 : w16 (s.pi + 1 + 1) = s.pi + 2 := w16_small _ (by omega)
  have w3 : w16 (s.pi + 1 + 2) = s.pi + 3 := w16_small _ (by omega)
  have w4 : w16 (s.pi + 1 + 3) = s.pi + 4 := w16_small _ (by omega)
  simp only [machine, hfin, rd_ok _ _ e0, hop, w1, w2, w3, w4, rd_ok _ _ e1, rd_ok _ _ e2,
    rd_ok _ _ hp, hx, hy, wr_ok _ _ _ hdst, bind, Except.bind, pure, Except.pure]
  simp
  funext j
  split_ifs <;> rfl

/-- One step at a `not`. -/
theorem machine_not (s : state) (inp : List Nat) (x : Nat)
    (hfin : s.fin = false) (hop : s.mem s.pi = op_not) (hp : s.pi + 2 < memSize)
    (hdst : s.mem (s.pi + 1) < memSize)
    (hx : getval s.mem (s.mem (s.pi + 2)) = .ok x) :
    machine s inp = .ok ⟨{ s with
      mem := fun j => if j = s.mem (s.pi + 1) then w16 (x ^^^ 65535) &&& modm else s.mem j,
      pi := s.pi + 3 }, inp, []⟩ := by
  have hp' : s.pi + 2 < 32776 := hp
  have e0 : s.pi < memSize := show s.pi < 32776 by omega
  have e1 : s.pi + 1 < memSize := show s.pi + 1 < 32776 by omega
  have w1 : w16 (s.pi + 1) = s.pi + 1 := w16_small _ (by omega)
  have w2 : w16 (s.pi + 1 + 1) = s.pi + 2 := w16_small _ (by omega)
  have w3 : w16 (s.pi + 1 + 2) = s.pi + 3 := w16_small _ (by omega)
  simp only [machine, hfin, rd_ok _ _ e0, hop, w1, w2, w3, rd_ok _ _ e1,
    rd_ok _ _ hp, hx, wr_ok _ _ _ hdst, bind, Except.bind, pure, Except.pure]
  simp
  funext j
  split_ifs <;> rfl

/-- One step at an `eq`. -/
theorem machine_eq (s : state) (inp : List Nat) (x y : Nat)
    (hfin : s.fin = false) (hop : s.mem s.pi = op_eq) (hp : s.pi + 3 < memSize)
    (hdst : s.mem (s.pi + 1) < memSize)
    (hx : getval s.mem (s.mem (s.pi + 2)) = .ok x)
    (hy : getval s.mem (s.mem (s.pi + 3)) = .ok y) :
    machine s inp = .ok ⟨{ s with
      mem := fun j => if j = s.mem (s.pi + 1) then (if x = y then 1 else 0) else s.mem j,
      pi := s.pi + 4 }, inp, []⟩ := by
  have hp' : s.pi + 3 < 32776 := hp
  have e0 : s.pi < memSize := show s.pi < 32776 by omega
  have e1 : s.pi + 1 < memSize := show s.pi + 1 < 32776 by omega
  have e2 : s.pi + 2 < memSize := show s.pi + 2 < 32776 by omega
  have w1 : w16 (s.pi + 1) = s.pi + 1 := w16_small _ (by omega)
  have w2 : w16 (s.pi + 1 + 1) = s.pi + 2 := w16_small _ (by omega)
  have w3 : w16 (s.pi + 1 + 2) = s.pi + 3 := w16_small _ (by omega)
  have w4 : w16 (s.pi + 1 + 3) = s.pi + 4 := w16_small _ (by omega)
  simp only [machine, hfin, rd_ok _ _ e0, hop, w1, w2, w3, w4, rd_ok _ _ e1, rd_ok _ _ e2,
    rd_ok _ _ hp, hx, hy, wr_ok _ _ _ hdst, bind, Except.bind, pure, Except.pure]
  simp

/-- One step at a `gt`. -/
theorem machine_gt (s : state) (inp : List Nat) (x y : Nat)
    (hfin : s.fin = false) (hop : s.mem s.pi = op_gt) (hp : s.pi + 3 < memSize)
    (hdst : s.mem (s.pi + 1) < memSize)
    (hx : getval s.mem (s.mem (s.pi + 2)) = .ok x)
    (hy : getval s.mem (s.mem (s.pi + 3)) = .ok y) :
    machine s inp = .ok ⟨{ s with
      mem := fun j => if j = s.mem (s.pi + 1) then (if x > y then 1 else 0) else s.mem j,
      pi := s.pi + 4 }, inp, []⟩ := by
  have hp' : s.pi + 3 < 32776 := hp
  have e0 : s.pi < memSize := show s.pi < 32776 by omega
  have e1 : s.pi + 1 < memSize := show s.pi + 1 < 32776 by omega
  have e2 : s.pi + 2 < memSize := show s.pi + 2 < 32776 by omega
  have w1 : w16 (s.pi + 1) = s.pi + 1 := w16_small _ (by omega)
  have w2 : w16 (s.pi + 1 + 1) = s.pi + 2 := w16_small _ (by omega)
  have w3 : w16 (s.pi + 1 + 2) = s.pi + 3 := w16_small _ (by omega)
  have w4 : w16 (s.pi + 1 + 3) = s.pi + 4 := w16_small _ (by omega)
  simp only [machine, hfin, rd_ok _ _ e0, hop, w1, w2, w3, w4, rd_ok _ _ e1, rd_ok _ _ e2,
    rd_ok _ _ hp, hx, hy, wr_ok _ _ _ hdst, bind, Except.bind, pure, Except.pure]
  simp

/-- One step at a `push`. -/
theorem machine_push (s : state) (inp : List Nat) (x : Nat)
    (hfin : s.fin = false) (hop : s.mem s.pi = op_push) (hp : s.pi + 1 < memSize)
    (hx : getval s.mem (s.mem (s.pi + 1)) = .ok x) :
    machine s inp = .ok ⟨{ s with stk := s.stk ++ [x], pi := s.pi + 2 }, inp, []⟩ := by
  have hp' : s.pi + 1 < 32776 := hp
  have e0 : s.pi < memSize := show s.pi < 32776 by omega
  have w1 : w16 (s.pi + 1) = s.pi + 1 := w16_small _ (by omega)
  have w2 : w16 (s.pi + 1 + 1) = s.pi + 2 := w16_small _ (by omega)
  simp only [machine, hfin, rd_ok _ _ e0, hop, w1, w2, rd_ok _ _ hp, hx, bind, Except.bind,
    pure, Except.pure]
  simp

/-- One step at a `pop` with a non-empty stack. -/
theorem machine_pop (s : state) (inp : List Nat) (rest : List Nat) (v : Nat)
    (hfin : s.fin = false) (hop : s.mem s.pi = op_pop) (hp : s.pi + 1 < memSize)
    (hdst : s.mem (s.pi + 1) < memSize) (hstk : s.stk = rest ++ [v]) :
    machine s inp = .ok ⟨{ s with
      mem := fun j => if j = s.mem (s.pi + 1) then v else s.mem j,
      stk := rest, pi := s.pi + 2 }, inp, []⟩ := by
  have hp' : s.pi + 1 < 32776 := hp
  have e0 : s.pi < memSize := show s.pi < 32776 by omega
  have w1 : w16 (s.pi + 1) = s.pi + 1 := w16_small _ (by omega)
  have w2 : w16 (s.pi + 1 + 1) = s.pi + 2 := w16_small _ (by omega)
  simp only [machine, hfin, rd_ok _ _ e0, hop, w1, w2, rd_ok _ _ hp, hstk, top_concat,
    wr_ok _ _ _ hdst, bind, Except.bind, pure, Except.pure]
  simp

/-- One step at a `call`. -/
theorem machine_call (s : state) (inp : List Nat) (t : Nat)
    (hfin : s.fin = false) (hop : s.mem s.pi = op_call) (hp : s.pi + 1 < memSize)
    (ht : getval s.mem (s.mem (s.pi + 1)) = .ok t) :
    machine s inp = .ok ⟨{ s with stk := s.stk ++ [s.pi + 2], pi := t }, inp, []⟩ := by
  have hp' : s.pi + 1 < 32776 := hp
  have e0 : s.pi < memSize := show s.pi < 32776 by omega
  have w1 : w16 (s.pi + 1) = s.pi + 1 := w16_small _ (by omega)
  have w2 : w16 (s.pi + 1 + 1) = s.pi + 2 := w16_small _ (by omega)
  simp only [machine, hfin, rd_ok _ _ e0, hop, w1, w2, rd_ok _ _ hp, ht, bind, Except.bind,
    pure, Except.pure]
  simp

/-- One step at a `ret` with a non-empty stack. -/
theorem machine_ret (s : state) (inp : List Nat) (rest : List Nat) (v : Nat)
    (hfin : s.fin = false) (hop : s.mem s.pi = op_ret) (hp : s.pi < memSize)
    (hstk : s.stk = rest ++ [v]) :
    machine s inp = .ok ⟨{ s with stk := rest, pi := v }, inp, []⟩ := by
  simp only [machine, hfin, rd_ok _ _ hp, hop, hstk, top_concat, bind, Except.bind,
    pure, Except.pure]
  simp

/-- One step at a `wmem` whose resolved address is inside the address space. -/
theorem machine_wmem (s : state) (inp : List Nat) (a v : Nat)
    (hfin : s.fin = false) (hop : s.mem s.pi = op_wmem) (hp : s.pi + 2 < memSize)
    (ha : getval s.mem (s.mem (s.pi + 1)) = .ok a)
    (hv : getval s.mem (s.mem (s.pi + 2)) = .ok v) (hr : a < memSize) :
    machine s inp = .ok ⟨{ s with
      mem := fun j => if j = a then v else s.mem j, pi := s.pi + 3 }, inp, []⟩ := by
  have hp' : s.pi + 2 < 32776 := hp
  have e0 : s.pi < memSize := show s.pi < 32776 by omega
  have e1 : s.pi + 1 < memSize := show s.pi + 1 < 32776 by omega
  have w1 : w16 (s.pi + 1) = s.pi + 1 := w16_small _ (by omega)
  have w2 : w16 (s.pi + 1 + 1) = s.pi + 2 := w16_small _ (by omega)
  have w3 : w16 (s.pi + 1 + 2) = s.pi + 3 := w16_small _ (by omega)
  simp only [machine, hfin, rd_ok _ _ e0, hop, w1, w2, w3, rd_ok _ _ e1, rd_ok _ _ hp, ha, hv,
    wr_ok _ _ _ hr, bind, Except.bind, pure, Except.pure]
  simp

/-- One step at a `wmem` whose resolved address is outside the address space:
the assignment `st.mem[a] = b` panics. -/
theorem machine_wmem_fault (s : state) (inp : List Nat) (a v : Nat)
    (hfin : s.fin = false) (hop : s.mem s.pi = op_wmem) (hp : s.pi + 2 < memSize)
    (ha : getval s.mem (s.mem (s.pi + 1)) = .ok a)
    (hv : getval s.mem (s.mem (s.pi + 2)) = .ok v) (hr : memSize ≤ a) :
    machine s inp = .error (.memIndex a) := by
  have hp' : s.pi + 2 < 32776 := hp
  have e0 : s.pi < memSize := show s.pi < 32776 by omega
  have e1 : s.pi + 1 < memSize := show s.pi + 1 < 32776 by omega
  have w1 : w16 (s.pi + 1) = s.pi + 1 := w16_small _ (by omega)
  have w2 : w16 (s.pi + 1 + 1) = s.pi + 2 := w16_small _ (by omega)
  simp only [machine, hfin, rd_ok _ _ e0, hop, w1, w2, rd_ok _ _ e1, rd_ok _ _ hp, ha, hv,
    wr_err _ _ _ hr, bind, Except.bind, pure, Except.pure]
  simp

/-- One step at a `halt`. -/
theorem machine_halt (s : state) (inp : List Nat)
    (hfin : s.fin = false) (hop : s.mem s.pi = op_halt) (hp : s.pi < memSize) :
    machine s inp = .ok ⟨{ s with pi := s.pi + 1, fin := true }, inp, []⟩ := by
  have hp' : s.pi < 32776 := hp
  have w1 : w16 (s.pi + 1) = s.pi + 1 := w16_small _ (by omega)
  simp only [machine, hfin, rd_ok _ _ hp, hop, w1, bind, Except.bind, pure, Except.pure]
  simp

/-- A halted machine does nothing. -/
theorem machine_fin (s : state) (inp : List Nat) (hfin : s.fin = true) :
    machine s inp = .ok ⟨s, inp, []⟩ := by
  simp [machine, hfin]

/-- One step at a word that is no opcode: the panic formats the program counter
after its increment together with the fetched word. -/
theorem machine_undecodable (s : state) (inp : List Nat)
    (hfin : s.fin = false) (hp : s.pi < memSize) (hop : 21 < s.mem s.pi) :
    machine s inp = .error (.unimplemented (s.pi + 1) (s.mem s.pi)) := by
  have hp' : s.pi < 32776 := hp
  have w1 : w16 (s.pi + 1) = s.pi + 1 := w16_small _ (by omega)
  have n0 : s.mem s.pi ≠ 0 := by omega
  have n1 : s.mem s.pi ≠ 1 := by omega
  have n2 : s.mem s.pi ≠ 2 := by omega
  have n3 : s.mem s.pi ≠ 3 := by omega
  have n4 : s.mem s.pi ≠ 4 := by omega
  have n5 : s.mem s.pi ≠ 5 := by omega
  have n6 : s.mem s.pi ≠ 6 := by omega
  have n7 : s.mem s.pi ≠ 7 := by omega
  have n8 : s.mem s.pi ≠ 8 := by omega
  have n9 : s.mem s.pi ≠ 9 := by omega
  have n10 : s.mem s.pi ≠ 10 := by omega
  have n11 : s.mem s.pi ≠ 11 := by omega
  have n12 : s.mem s.pi ≠ 12 := by omega
  have n13 : s.mem s.pi ≠ 13 := by omega
  have n14 : s.mem s.pi ≠ 14 := by omega
  have n15 : s.mem s.pi ≠ 15 := by omega
  have n16 : s.mem s.pi ≠ 16 := by omega
  have n17 : s.mem s.pi ≠ 17 := by omega
  have n18 : s.mem s.pi ≠ 18 := by omega
  have n19 : s.mem s.pi ≠ 19 := by omega
  have n20 : s.mem s.pi ≠ 20 := by omega
  have n21 : s.mem s.pi ≠ 21 := by omega
  simp only [machine, hfin, rd_ok _ _ hp, w1, bind, Except.bind, pure, Except.pure]
  simp [n0, n1, n2, n3, n4, n5, n6, n7, n8, n9, n10, n11, n12, n13, n14, n15, n16, n17, n18,
    n19, n20, n21]

/-! ## The loop of the word codec -/

theorem byteAt_ok (b : List Nat) (i : Nat) (h : i < b.length) :
    byteAt b i = .ok (b.getD i 0) := by
  simp [byteAt, List.getD, List.getElem?_eq_getElem h]

theorem byteAt_err (b : List Nat) (i : Nat) (h : b.length ≤ i) :
    byteAt b i = .error (.byteIndex i) := by
  simp [byteAt, List.getElem?_eq_none h]

theorem getD_set (r : List Nat) (k v j : Nat) (hk : k < r.length) :
    (r.set k v).getD j 0 = if j = k then v else r.getD j 0 := by
  simp only [List.getD, List.get?_eq_getElem?, List.getElem?_set]
  by_cases h : k = j
  · subst h
    simp [hk]
  · have h' : ¬ j = k := fun e => h e.symm
    simp [h, h']

theorem loop_spec (b : List Nat) (n : Nat) (hb : b.length = 2 * n) :
    ∀ m k r, n - k = m → k ≤ n → r.length = n →
      ∃ r', bytesTouint16.loop b (2 * k) r = .ok r' ∧ r'.length = n ∧
        ∀ j, r'.getD j 0 = if k ≤ j ∧ j < n then word b j else r.getD j 0 := by
  intro m
  induction m with
  | zero =>
    intro k r hm hk hr
    have hkn : k = n := by omega
    subst hkn
    refine ⟨r, ?_, hr, ?_⟩
    · rw [bytesTouint16.loop, if_neg (by omega)]
    · intro j
      rw [if_neg (by omega)]
  | succ m ih =>
    intro k r hm hk hr
    have hlt : 2 * k < b.length := by omega
    have hk2 : 2 * k / 2 = k := by omega
    obtain ⟨r', h1, h2, h3⟩ := ih (k + 1)
      (r.set k (word b k)) (by omega) (by omega) (by simp [hr])
    refine ⟨r', ?_, h2, ?_⟩
    · rw [bytesTouint16.loop, if_pos hlt, byteAt_ok b (2 * k + 1) (by omega),
        byteAt_ok b (2 * k) hlt]
      simp only [bind, Except.bind, setWord, hk2]
      rw [if_pos (by omega)]
      exact h1
    · intro j
      rw [h3 j, getD_set r k (word b k) j (by omega)]
      by_cases hj : j = k
      · subst hj
        rw [if_neg (by omega), if_pos rfl, if_pos ⟨Nat.le_refl _, by omega⟩]
      · by_cases hj2 : k + 1 ≤ j ∧ j < n
        · rw [if_pos hj2, if_pos ⟨by omega, hj2.2⟩]
        · rw [if_neg hj2, if_neg hj, if_neg (by omega)]

theorem word_bytes (b : List Nat) (j : Nat) (hb : ∀ x ∈ b, x < 256) :
    word b j = b.getD (2 * j + 1) 0 * 256 + b.getD (2 * j) 0 := by
  have hget : ∀ i, b.getD i 0 < 256 := by
    intro i
    by_cases h : i < b.length
    · rw [List.getD_eq_getElem _ _ h]
      exact hb _ (List.getElem_mem _)
    · rw [List.getD_eq_default _ _ (by omega)]
      decide
  have h1 := hget (2 * j + 1)
  have h0 := hget (2 * j)
  unfold word
  rw [w16_small (b.getD (2 * j + 1) 0) (by omega), w16_small (b.getD (2 * j) 0) (by omega),
    Nat.shiftLeft_eq, w16_small _ (by omega)]
  have := Nat.mul_add_lt_is_or (i := 8) (b := b.getD (2 * j) 0) (by omega) (b.getD (2 * j + 1) 0)
  rw [Nat.mul_comm] at this
  exact this.symm

theorem encodeWords_length (ws : List Nat) : (encodeWords ws).length = 2 * ws.length := by
  induction ws with
  | nil => rfl
  | cons w ws ih =>
    simp only [encodeWords, List.length_cons, ih]
    omega

theorem encodeWords_getD (ws : List Nat) :
    ∀ j, j < ws.length →
      (encodeWords ws).getD (2 * j) 0 = ws.getD j 0 % 256 ∧
      (encodeWords ws).getD (2 * j + 1) 0 = ws.getD j 0 / 256 := by
  induction ws with
  | nil => intro j hj; cases hj
  | cons w ws ih =>
    intro j hj
    cases j with
    | zero => exact ⟨rfl, rfl⟩
    | succ j =>
      have h := ih j (by simpa using hj)
      have e1 : 2 * (j + 1) = (2 * j) + 1 + 1 := by omega
      rw [e1]
      simpa [encodeWords] using h

theorem encodeWords_bytes (ws : List Nat) (h : ∀ w ∈ ws, w < 65536) :
    ∀ x ∈ encodeWords ws, x < 256 := by
  induction ws with
  | nil => intro x hx; cases hx
  | cons w ws ih =>
    intro x hx
    have hw : w < 65536 := h w (List.mem_cons_self _ _)
    simp only [encodeWords, List.mem_cons] at hx
    rcases hx with hx | hx | hx
    · subst hx; omega
    · subst hx; omega
    · exact ih (fun w' hw' => h w' (List.mem_cons_of_mem _ hw')) x hx

theorem decode_even (b : List Nat) (hlen : b.length % 2 = 0) (hb : ∀ x ∈ b, x < 256) :
    ∃ r, bytesTouint16 b = .ok r ∧ r.length = b.length / 2 ∧
      ∀ i, i < b.length / 2 → r.getD i 0 = b.getD (2 * i + 1) 0 * 256 + b.getD (2 * i) 0 := by
  have hn : b.length = 2 * (b.length / 2) := by omega
  obtain ⟨r, h1, h2, h3⟩ := loop_spec b (b.length / 2) hn (b.length / 2 - 0) 0
    (List.replicate (b.length / 2) 0) rfl (Nat.zero_le _) (List.length_replicate _ _)
  refine ⟨r, h1, h2, fun i hi => ?_⟩
  rw [h3 i, if_pos ⟨Nat.zero_le _, hi⟩]
  exact word_bytes b i hb

/-! ## Value resolution -/

/-- C1: value resolution.  For every raw word `v` with `0 ≤ v ≤ 32767`,
`getval` returns `v` whatever the memory is; for every `v` with
`32768 ≤ v ≤ 32775` it returns the current contents of register `v - 32768`,
which is cell `v` of the address space. -/
theorem getval_resolution (mem : Nat → Nat) (v : Nat) :
    (v ≤ 32767 → getval mem v = .ok v) ∧
    (32768 ≤ v → v ≤ 32775 →
      getval mem v = .ok (reg mem (v - 32768)) ∧ reg mem (v - 32768) = mem v) := by
  refine ⟨fun h => getval_lit mem v (show v < 32768 by omega), fun h1 h2 => ?_⟩
  have hr : reg mem (v - 32768) = mem v := by
    have e : modk + (v - 32768) = v := show 32768 + (v - 32768) = v by omega
    unfold reg
    rw [e]
  rw [hr]
  exact ⟨getval_reg mem v h1 (show v < 32776 by omega), rfl⟩

/-- Instance of C1 on the memory image `[9, 32768, 32769, 4]` with register 1
set to 7: the literal 4 resolves to itself, the word 32769 to the contents of
register 1. -/
theorem getval_resolution_witness :
    getval (fun i => if i = 32769 then 7 else (load [9, 32768, 32769, 4]).mem i) 4 = .ok 4 ∧
    getval (fun i => if i = 32769 then 7 else (load [9, 32768, 32769, 4]).mem i) 32769
      = .ok 7 :=
  ⟨(getval_resolution _ 4).1 (by decide),
   ((getval_resolution _ 32769).2 (by decide) (by decide)).1⟩

/-! ## Arithmetic -/

/-- C2: arithmetic wraps modulo 32768.  In a non-halted state whose next
instruction is `add dst,a,b` (resp. `mult dst,a,b`, `not dst,a`) with in-range
addresses and resolved operands `x`, `y` below 32768, one step succeeds and
leaves cell `dst` holding `(x + y) % 32768` (resp. `(x * y) % 32768`, resp. the
15-bit complement `32767 - x`), a value below 32768. -/
theorem arith_wraps (s : state) (inp : List Nat) (x y : Nat)
    (hfin : s.fin = false) (hp : s.pi + 2 < memSize)
    (hdst : s.mem (s.pi + 1) < memSize)
    (hx : getval s.mem (s.mem (s.pi + 2)) = .ok x) (hx15 : x < 32768) :
    (s.mem s.pi = op_add → s.pi + 3 < memSize →
      getval s.mem (s.mem (s.pi + 3)) = .ok y → y < 32768 →
      ∃ o, machine s inp = .ok o ∧ o.st.mem (s.mem (s.pi + 1)) = (x + y) % 32768 ∧
        o.st.mem (s.mem (s.pi + 1)) < 32768) ∧
    (s.mem s.pi = op_mult → s.pi + 3 < memSize →
      getval s.mem (s.mem (s.pi + 3)) = .ok y → y < 32768 →
      ∃ o, machine s inp = .ok o ∧ o.st.mem (s.mem (s.pi + 1)) = (x * y) % 32768 ∧
        o.st.mem (s.mem (s.pi + 1)) < 32768) ∧
    (s.mem s.pi = op_not →
      ∃ o, machine s inp = .ok o ∧ o.st.mem (s.mem (s.pi + 1)) = 32767 - x ∧
        32767 - x = x ^^^ 32767 ∧ o.st.mem (s.mem (s.pi + 1)) < 32768) := by
  refine ⟨fun hop hp3 hy _ => ?_, fun hop hp3 hy _ => ?_, fun hop => ?_⟩
  · refine ⟨_, machine_add s inp x y hfin hop hp3 hdst hx hy, ?_, ?_⟩
    · show (if _ then _ else _) = _
      rw [if_pos rfl, mask_w16]
    · show (if _ then _ else _) < _
      rw [if_pos rfl, mask_w16]
      exact Nat.mod_lt _ (by decide)
  · refine ⟨_, machine_mult s inp x y hfin hop hp3 hdst hx hy, ?_, ?_⟩
    · show (if _ then _ else _) = _
      rw [if_pos rfl, mask_w16]
    · show (if _ then _ else _) < _
      rw [if_pos rfl, mask_w16]
      exact Nat.mod_lt _ (by decide)
  · refine ⟨_, machine_not s inp x hfin hop hp hdst hx, ?_, (xor_low x hx15).symm, ?_⟩
    · show (if _ then _ else _) = _
      rw [if_pos rfl]
      exact not_wrap x hx15
    · show (if _ then _ else _) < _
      rw [if_pos rfl, not_wrap x hx15]
      omega

/-- Instances of C2: `add r0, 32767, 3` leaves 2 in register 0,
`mult r0, 32767, 32767` leaves 1 and `not r0, 5` leaves 32762. -/
theorem arith_wraps_witness :
    (∃ o, machine (load [9, 32768, 32767, 3]) [] = .ok o ∧ o.st.mem 32768 = 2) ∧
    (∃ o, machine (load [10, 32768, 32767, 32767]) [] = .ok o ∧ o.st.mem 32768 = 1) ∧
    (∃ o, machine (load [14, 32768, 5]) [] = .ok o ∧ o.st.mem 32768 = 32762) := by
  refine ⟨?_, ?_, ?_⟩
  · obtain ⟨o, h, hv, _⟩ := (arith_wraps (load [9, 32768, 32767, 3]) [] 32767 3 rfl
      (by decide) (by decide) rfl (by decide)).1 rfl (by decide) rfl (by decide)
    exact ⟨o, h, hv⟩
  · obtain ⟨o, h, hv, _⟩ := (arith_wraps (load [10, 32768, 32767, 32767]) [] 32767 32767 rfl
      (by decide) (by decide) rfl (by decide)).2.1 rfl (by decide) rfl (by decide)
    exact ⟨o, h, hv⟩
  · obtain ⟨o, h, hv, _⟩ := (arith_wraps (load [14, 32768, 5]) [] 5 0 rfl
      (by decide) (by decide) rfl (by decide)).2.2 rfl
    exact ⟨o, h, hv⟩

/-! ## Comparison -/

/-- C3: in a non-halted state whose next instruction is `eq dst,a,b` or
`gt dst,a,b` with in-range addresses, one step succeeds and cell `dst` then
holds 0 or 1; for `eq` it holds 1 exactly when the resolved operands are equal,
for `gt` exactly when the first is greater than the second as unsigned
numbers. -/
theorem eq_gt_flag (s : state) (inp : List Nat) (x y : Nat)
    (hfin : s.fin = false) (hp : s.pi + 3 < memSize)
    (hdst : s.mem (s.pi + 1) < memSize)
    (hx : getval s.mem (s.mem (s.pi + 2)) = .ok x)
    (hy : getval s.mem (s.mem (s.pi + 3)) = .ok y) :
    (s.mem s.pi = op_eq →
      ∃ o, machine s inp = .ok o ∧
        (o.st.mem (s.mem (s.pi + 1)) = 0 ∨ o.st.mem (s.mem (s.pi + 1)) = 1) ∧
        (o.st.mem (s.mem (s.pi + 1)) = 1 ↔ x = y)) ∧
    (s.mem s.pi = op_gt →
      ∃ o, machine s inp = .ok o ∧
        (o.st.mem (s.mem (s.pi + 1)) = 0 ∨ o.st.mem (s.mem (s.pi + 1)) = 1) ∧
        (o.st.mem (s.mem (s.pi + 1)) = 1 ↔ x > y)) := by
  refine ⟨fun hop => ?_, fun hop => ?_⟩
  · refine ⟨_, machine_eq s inp x y hfin hop hp hdst hx hy, ?_, ?_⟩
    · show (if _ then _ else _) = 0 ∨ (if _ then _ else _) = 1
      rw [if_pos rfl]
      split_ifs <;> simp
    · show (if _ then _ else _) = 1 ↔ _
      rw [if_pos rfl]
      split_ifs with h <;> simp [h]
  · refine ⟨_, machine_gt s inp x y hfin hop hp hdst hx hy, ?_, ?_⟩
    · show (if _ then _ else _) = 0 ∨ (if _ then _ else _) = 1
      rw [if_pos rfl]
      split_ifs <;> simp
    · show (if _ then _ else _) = 1 ↔ _
      rw [if_pos rfl]
      split_ifs with h <;> simp [h]

/-- Instances of C3: `eq r0, 5, 5` stores 1 and `gt r0, 5, 7` stores 0. -/
theorem eq_gt_flag_witness :
    (∃ o, machine (load [4, 32768, 5, 5]) [] = .ok o ∧ o.st.mem 32768 = 1) ∧
    (∃ o, machine (load [5, 32768, 5, 7]) [] = .ok o ∧ o.st.mem 32768 = 0) := by
  refine ⟨?_, ?_⟩
  · obtain ⟨o, h, _, hv⟩ := (eq_gt_flag (load [4, 32768, 5, 5]) [] 5 5 rfl
      (by decide) (by decide) rfl rfl).1 rfl
    exact ⟨o, h, hv.2 rfl⟩
  · obtain ⟨o, h, h01, hv⟩ := (eq_gt_flag (load [5, 32768, 5, 7]) [] 5 7 rfl
      (by decide) (by decide) rfl rfl).2 rfl
    refine ⟨o, h, ?_⟩
    rcases h01 with h0 | h1
    · exact h0
    · exact absurd (hv.1 h1) (by decide)

/-! ## Stack discipline -/

/-- C4: stack discipline.  In a non-halted state whose program counter points
at `push x` immediately followed by `pop dst` (in-range addresses), both steps
succeed; afterwards cell `dst` holds the value `x` resolved to before the push
and the operand stack is the one from before the push. -/
theorem push_pop (s : state) (inp : List Nat) (v : Nat)
    (hfin : s.fin = false) (hp : s.pi + 3 < memSize)
    (hpush : s.mem s.pi = op_push) (hpop : s.mem (s.pi + 2) = op_pop)
    (hdst : s.mem (s.pi + 3) < memSize)
    (hx : getval s.mem (s.mem (s.pi + 1)) = .ok v) :
    ∃ o1 o2, machine s inp = .ok o1 ∧ machine o1.st o1.inp = .ok o2 ∧
      o2.st.mem (s.mem (s.pi + 3)) = v ∧ o2.st.stk = s.stk ∧
      o2.st.stk.length = s.stk.length := by
  have hp' : s.pi + 3 < 32776 := hp
  have h1 := machine_push s inp v hfin hpush (show s.pi + 1 < 32776 by omega) hx
  have h2 := machine_pop { s with stk := s.stk ++ [v], pi := s.pi + 2 } inp s.stk v hfin hpop
    hp hdst rfl
  refine ⟨_, _, h1, h2, ?_, rfl, rfl⟩
  show (if _ then _ else _) = v
  rw [if_pos rfl]

/-- Instance of C4: `push 7; pop r0` on an empty stack leaves 7 in register 0
and the stack empty. -/
theorem push_pop_witness :
    ∃ o1 o2, machine (load [2, 7, 3, 32768]) [] = .ok o1 ∧
      machine o1.st o1.inp = .ok o2 ∧ o2.st.mem 32768 = 7 ∧ o2.st.stk = [] := by
  obtain ⟨o1, o2, h1, h2, hv, hs, _⟩ := push_pop (load [2, 7, 3, 32768]) [] 7 rfl
    (by decide) rfl rfl (by decide) rfl
  exact ⟨o1, o2, h1, h2, hv, hs⟩

/-! ## Call and return -/

/-- C5: call/return.  In a non-halted state whose program counter `p` points at
`call T`, one step pushes `p + 2` and sets the program counter to the value `T`
resolves to.  A `ret` executed afterwards on that stack (in any memory and at
any program counter), and in particular a `ret` found at the call target, sets
the program counter to `p + 2` and leaves the stack as it was before the
call. -/
theorem call_ret (s : state) (inp : List Nat) (t : Nat)
    (hfin : s.fin = false) (hop : s.mem s.pi = op_call) (hp : s.pi + 1 < memSize)
    (ht : getval s.mem (s.mem (s.pi + 1)) = .ok t) :
    ∃ o, machine s inp = .ok o ∧ o.st.stk = s.stk ++ [s.pi + 2] ∧ o.st.pi = t ∧
      (∀ (s2 : state) (inp2 : List Nat), s2.fin = false → s2.stk = o.st.stk →
        s2.pi < memSize → s2.mem s2.pi = op_ret →
        ∃ o2, machine s2 inp2 = .ok o2 ∧ o2.st.pi = s.pi + 2 ∧ o2.st.stk = s.stk) ∧
      (t < memSize → s.mem t = op_ret →
        ∃ o2, machine o.st o.inp = .ok o2 ∧ o2.st.pi = s.pi + 2 ∧ o2.st.stk = s.stk) := by
  refine ⟨_, machine_call s inp t hfin hop hp ht, rfl, rfl, ?_, ?_⟩
  · intro s2 inp2 hfin2 hstk hp2 hop2
    exact ⟨_, machine_ret s2 inp2 s.stk (s.pi + 2) hfin2 hop2 hp2 hstk, rfl, rfl⟩
  · intro htm hret
    exact ⟨_, machine_ret { s with stk := s.stk ++ [s.pi + 2], pi := t } inp s.stk (s.pi + 2)
      hfin hret htm rfl, rfl, rfl⟩

/-- Instance of C5: `call 3` at address 0 with a `ret` at address 3 comes back
to address 2 with an empty stack. -/
theorem call_ret_witness :
    ∃ o o2, machine (load [17, 3, 0, 18]) [] = .ok o ∧ o.st.stk = [2] ∧ o.st.pi = 3 ∧
      machine o.st o.inp = .ok o2 ∧ o2.st.pi = 2 ∧ o2.st.stk = [] := by
  obtain ⟨o, h, hs, hpi, _, hr⟩ := call_ret (load [17, 3, 0, 18]) [] 3 rfl rfl
    (by decide) rfl
  obtain ⟨o2, h2, hpi2, hs2⟩ := hr (by decide) rfl
  exact ⟨o, o2, h, hs, hpi, h2, hpi2, hs2⟩

/-! ## Write memory -/

/-- C6, as the claim states it, fails: after `in r0` has read the character with
code 32769 into register 0, the instruction `wmem r0, 7` resolves its address to
32769 and overwrites register 1 (cell 32769), which is not among the first 32768
cells. -/
theorem wmem_writes_register :
    ∃ o1 o2, machine (load [20, 32768, 16, 32768, 7]) [32769] = .ok o1 ∧
      o1.st.fin = false ∧ o1.st.mem o1.st.pi = op_wmem ∧
      getval o1.st.mem (o1.st.mem (o1.st.pi + 1)) = .ok 32769 ∧
      machine o1.st o1.inp = .ok o2 ∧
      reg o1.st.mem 1 = 0 ∧ reg o2.st.mem 1 = 7 ∧ ¬ (32769 < 32768) :=
  ⟨_, _, rfl, rfl, rfl, rfl, rfl, rfl, rfl, by decide⟩

/-- C6 (amended): in a non-halted state whose next instruction is
`wmem addr,src` with in-range operands, if `addr` resolves to an index `a`
inside the address space, one step stores the value of `src` into cell `a` and
changes no other cell; when `a < 32768`, which holds whenever `addr` is a
literal, no register changes. -/
theorem wmem_dest (s : state) (inp : List Nat) (a v : Nat)
    (hfin : s.fin = false) (hop : s.mem s.pi = op_wmem) (hp : s.pi + 2 < memSize)
    (ha : getval s.mem (s.mem (s.pi + 1)) = .ok a)
    (hv : getval s.mem (s.mem (s.pi + 2)) = .ok v) (hr : a < memSize) :
    ∃ o, machine s inp = .ok o ∧ o.st.mem a = v ∧
      (∀ j, j ≠ a → o.st.mem j = s.mem j) ∧
      (a < 32768 → ∀ n, n < regc → reg o.st.mem n = reg s.mem n) ∧
      (s.mem (s.pi + 1) < 32768 → a < 32768) := by
  refine ⟨_, machine_wmem s inp a v hfin hop hp ha hv hr, ?_, ?_, ?_, ?_⟩
  · show (if _ then _ else _) = v
    rw [if_pos rfl]
  · intro j hj
    show (if _ then _ else _) = _
    rw [if_neg hj]
  · intro ha15 n _
    have hne : modk + n ≠ a := by
      show 32768 + n ≠ a
      omega
    show (if _ then _ else _) = _
    rw [if_neg hne]
    rfl
  · intro hlit
    rw [getval_lit _ _ hlit] at ha
    cases ha
    exact hlit

/-- Instance of amended C6: `wmem 100, 7` stores 7 in cell 100 and leaves
register 0 alone. -/
theorem wmem_dest_witness :
    ∃ o, machine (load [16, 100, 7]) [] = .ok o ∧ o.st.mem 100 = 7 ∧
      reg o.st.mem 0 = reg (load [16, 100, 7]).mem 0 := by
  obtain ⟨o, h, hv, _, hreg, _⟩ := wmem_dest (load [16, 100, 7]) [] 100 7 rfl rfl
    (by decide) rfl rfl (by decide)
  exact ⟨o, h, hv, hreg (by decide) 0 (by decide)⟩

/-! ## Halt -/

/-- C7: halt is immediate and terminal.  In a non-halted state whose next opcode
is `halt`, one step sets the halted flag, prints nothing, reads nothing and
leaves stack and address space (memory and registers) untouched; this holds in
particular for the program whose image is the single word 0.  In a state whose
halted flag is set, a step returns the same state, with no output. -/
theorem halt_terminal (s : state) (inp : List Nat) :
    (s.fin = false → s.pi < memSize → s.mem s.pi = op_halt →
      ∃ o, machine s inp = .ok o ∧ o.st.fin = true ∧ o.out = [] ∧ o.inp = inp ∧
        o.st.stk = s.stk ∧ o.st.mem = s.mem) ∧
    (s.fin = true → machine s inp = .ok ⟨s, inp, []⟩) ∧
    (∃ o, machine (load [0]) inp = .ok o ∧ o.st.fin = true ∧ o.out = [] ∧
      o.st.stk = [] ∧ o.st.mem = (load [0]).mem) := by
  refine ⟨fun hfin hp hop => ?_, fun hfin => machine_fin s inp hfin, ?_⟩
  · exact ⟨_, machine_halt s inp hfin hop hp, rfl, rfl, rfl, rfl, rfl⟩
  · exact ⟨_, machine_halt (load [0]) inp rfl rfl (by decide), rfl, rfl, rfl, rfl⟩

/-- Instance of C7: the state reached by halting the program `[0]` is halted,
and a further step returns it unchanged. -/
theorem halt_terminal_witness :
    (∃ o, machine (load [0, 19, 65]) [] = .ok o ∧ o.st.fin = true ∧ o.out = []) ∧
    machine { load [0, 19, 65] with pi := 1, fin := true } [66]
      = .ok ⟨{ load [0, 19, 65] with pi := 1, fin := true }, [66], []⟩ := by
  refine ⟨?_, (halt_terminal _ [66]).2.1 rfl⟩
  obtain ⟨o, h, hf, ho, _⟩ := (halt_terminal (load [0, 19, 65]) []).1 rfl (by decide) rfl
  exact ⟨o, h, hf, ho⟩

/-! ## Stack underflow -/

/-- C8: stack underflow is fatal.  In a non-halted state with an empty stack
whose next opcode is `pop` or `ret`, the step fails (no successor state), with
the empty-stack index panic as soon as the operand of `pop` can be fetched.
With a stack `rest ++ [v]` and in-range addresses, `pop` and `ret` succeed and
leave `rest` as the stack, `v` becoming the contents of `dst` (pop) or the
program counter (ret). -/
theorem stack_underflow (s : state) (inp : List Nat)
    (hfin : s.fin = false) (hp : s.pi < memSize) :
    (s.stk = [] → (s.mem s.pi = op_pop ∨ s.mem s.pi = op_ret) →
      ∃ e, machine s inp = .error e) ∧
    (s.stk = [] → s.mem s.pi = op_ret → machine s inp = .error .stkIndex) ∧
    (s.stk = [] → s.mem s.pi = op_pop → s.pi + 1 < memSize →
      machine s inp = .error .stkIndex) ∧
    (∀ rest v, s.stk = rest ++ [v] → s.mem s.pi = op_pop → s.pi + 1 < memSize →
      s.mem (s.pi + 1) < memSize →
      ∃ o, machine s inp = .ok o ∧ o.st.stk = rest ∧ o.st.mem (s.mem (s.pi + 1)) = v) ∧
    (∀ rest v, s.stk = rest ++ [v] → s.mem s.pi = op_ret →
      ∃ o, machine s inp = .ok o ∧ o.st.stk = rest ∧ o.st.pi = v) := by
  have hp' : s.pi < 32776 := hp
  have w1 : w16 (s.pi + 1) = s.pi + 1 := w16_small _ (by omega)
  have hret : s.stk = [] → s.mem s.pi = op_ret → machine s inp = .error .stkIndex := by
    intro hs hop
    simp only [machine, hfin, rd_ok _ _ hp, hop, hs, top_nil, bind, Except.bind]
    simp
  have hpop : s.stk = [] → s.mem s.pi = op_pop → s.pi + 1 < memSize →
      machine s inp = .error .stkIndex := by
    intro hs hop h1
    simp only [machine, hfin, rd_ok _ _ hp, hop, w1, rd_ok _ _ h1, hs, top_nil, bind,
      Except.bind]
    simp
  refine ⟨?_, hret, hpop, ?_, ?_⟩
  · intro hs hop
    rcases hop with hop | hop
    · by_cases h1 : s.pi + 1 < memSize
      · exact ⟨_, hpop hs hop h1⟩
      · refine ⟨.memIndex (s.pi + 1), ?_⟩
        simp only [machine, hfin, rd_ok _ _ hp, hop, w1, rd_err _ _ (Nat.le_of_not_lt h1), bind,
          Except.bind]
        simp
    · exact ⟨_, hret hs hop⟩
  · intro rest v hs hop h1 hdst
    refine ⟨_, machine_pop s inp rest v hfin hop h1 hdst hs, rfl, ?_⟩
    show (if _ then _ else _) = v
    rw [if_pos rfl]
  · intro rest v hs hop
    exact ⟨_, machine_ret s inp rest v hfin hop hp hs, rfl, rfl⟩

/-- Instances of C8: `pop r0` and `ret` on the empty stack panic; on the stack
`[4, 9]` they succeed, leave `[4]` and deliver 9. -/
theorem stack_underflow_witness :
    machine (load [3, 32768]) [] = .error .stkIndex ∧
    machine (load [18]) [] = .error .stkIndex ∧
    (∃ o, machine { load [3, 32768] with stk := [4, 9] } [] = .ok o ∧ o.st.stk = [4] ∧
      o.st.mem 32768 = 9) ∧
    (∃ o, machine { load [18] with stk := [4, 9] } [] = .ok o ∧ o.st.stk = [4] ∧
      o.st.pi = 9) :=
  ⟨(stack_underflow (load [3, 32768]) [] rfl (by decide)).2.2.1 rfl rfl (by decide),
   (stack_underflow (load [18]) [] rfl (by decide)).2.1 rfl rfl,
   (stack_underflow { load [3, 32768] with stk := [4, 9] } [] rfl (by decide)).2.2.2.1
     [4] 9 rfl rfl (by decide) (by decide),
   (stack_underflow { load [18] with stk := [4, 9] } [] rfl (by decide)).2.2.2.2
     [4] 9 rfl rfl⟩

/-! ## Undecodable opcode -/

/-- C9 at the failing input: for the image `[22]` (program counter 0, word 22 at
address 0, word 0 at address 1) the step panics, and the panic message is built
from the address 1 and the word 22: it names the address after the undecodable
word, not address 0 where the word 22 lies. -/
theorem undecodable_reports_next_address :
    (load [22]).fin = false ∧ (load [22]).pi = 0 ∧ (load [22]).mem 0 = 22 ∧
    (load [22]).mem 1 = 0 ∧
    machine (load [22]) [] = .error (.unimplemented 1 22) ∧
    unimplementedMessage 1 22 = "unimplemented instr: mem[1] = 22" :=
  ⟨rfl, rfl, rfl, rfl, machine_undecodable (load [22]) [] rfl (by decide) (by decide),
   by decide⟩

/-! ## Word codec -/

/-- C10: word codec round trip.  For every sequence `ws` of 16-bit words,
decoding with `bytesTouint16` the buffer that holds each word `w` as the byte
pair `(w % 256, w / 256)` returns exactly `ws`; and for every buffer `b` of even
length the decoder returns `len(b) / 2` words, the `i`-th being
`b[2i+1] * 256 + b[2i]`. -/
theorem word_codec (ws b : List Nat) :
    ((∀ w ∈ ws, w < 65536) → bytesTouint16 (encodeWords ws) = .ok ws) ∧
    (b.length % 2 = 0 → (∀ x ∈ b, x < 256) →
      ∃ r, bytesTouint16 b = .ok r ∧ r.length = b.length / 2 ∧
        ∀ i, i < b.length / 2 →
          r.getD i 0 = b.getD (2 * i + 1) 0 * 256 + b.getD (2 * i) 0) := by
  refine ⟨fun hws => ?_, decode_even b⟩
  have hl := encodeWords_length ws
  obtain ⟨r, h1, h2, h3⟩ := decode_even (encodeWords ws) (by omega) (encodeWords_bytes ws hws)
  have hlen : r.length = ws.length := by omega
  have hr : r = ws := by
    apply List.ext_getElem hlen
    intro i hi1 hi2
    have h := h3 i (by omega)
    obtain ⟨e0, e1⟩ := encodeWords_getD ws i hi2
    rw [e0, e1, List.getD_eq_getElem _ _ hi1, List.getD_eq_getElem _ _ hi2] at h
    rw [h]
    omega
  rw [h1, hr]

/-- Instances of C10: the words `[513, 65535, 0]` survive the round trip, and
the buffer `[1, 2, 3, 4]` decodes to two words, the second being `4 * 256 + 3`. -/
theorem word_codec_witness :
    bytesTouint16 (encodeWords [513, 65535, 0]) = .ok [513, 65535, 0] ∧
    (∃ r, bytesTouint16 [1, 2, 3, 4] = .ok r ∧ r.length = 2 ∧ r.getD 1 0 = 4 * 256 + 3) := by
  refine ⟨(word_codec [513, 65535, 0] []).1 (by decide), ?_⟩
  obtain ⟨r, h, hl, hv⟩ := (word_codec [] [1, 2, 3, 4]).2 (by decide) (by decide)
  exact ⟨r, h, hl, hv 1 (by decide)⟩

/-- The loop of the word codec on a buffer of odd length `2 * n + 1`, entered at
an even index with a result slice of `n` words: the pairs before the last byte
are decoded, then `b[i+1]` is read past the end of the buffer. -/
theorem loop_odd (b : List Nat) (n : Nat) (hb : b.length = 2 * n + 1) :
    ∀ m k r, n - k = m → k ≤ n → r.length = n →
      bytesTouint16.loop b (2 * k) r = .error (.byteIndex b.length) := by
  intro m
  induction m with
  | zero =>
    intro k r hm hk hr
    have hkn : k = n := by omega
    subst hkn
    rw [bytesTouint16.loop, if_pos (by omega), byteAt_err b (2 * k + 1) (by omega)]
    have e : 2 * k + 1 = b.length := by omega
    rw [e]
    rfl
  | succ m ih =>
    intro k r hm hk hr
    have hlt : 2 * k < b.length := by omega
    have hk2 : 2 * k / 2 = k := by omega
    rw [bytesTouint16.loop, if_pos hlt, byteAt_ok b (2 * k + 1) (by omega),
      byteAt_ok b (2 * k) hlt]
    simp only [bind, Except.bind, setWord, hk2]
    rw [if_pos (by omega)]
    exact ih (k + 1) _ (by omega) (by omega) (by simp [hr])

/-- C11, as the claim states it, fails: on the three-byte buffer `[1, 2, 3]` the
decoder does not return the single word `513` of the first pair; it panics on
the read of `b[3]`. -/
theorem odd_length_not_truncated :
    bytesTouint16 [1, 2, 3] = .error (.byteIndex 3) ∧
    bytesTouint16 [1, 2, 3] ≠ .ok [513] ∧
    bytesTouint16 [1, 2] = .ok [513] := by
  have h : bytesTouint16 [1, 2, 3] = .error (.byteIndex 3) :=
    loop_odd [1, 2, 3] 1 rfl 1 0 _ rfl (by decide) rfl
  refine ⟨h, ?_, ?_⟩
  · rw [h]
    intro hc
    cases hc
  · simp [bytesTouint16, bytesTouint16.loop, byteAt, setWord, w16, bind, Except.bind]

/-- C11 (amended): for every byte buffer `b` of odd length, `bytesTouint16 b`
does not return a word sequence: after the complete pairs it reads `b[len(b)]`,
one past the last byte, and panics with that index out of range. -/
theorem odd_length_panics (b : List Nat) (hodd : b.length % 2 = 1) :
    bytesTouint16 b = .error (.byteIndex b.length) ∧
    ∀ r, bytesTouint16 b ≠ .ok r := by
  have hn : b.length = 2 * (b.length / 2) + 1 := by omega
  have h : bytesTouint16 b = .error (.byteIndex b.length) :=
    loop_odd b (b.length / 2) hn (b.length / 2 - 0) 0 _ rfl (Nat.zero_le _)
      (List.length_replicate _ _)
  refine ⟨h, fun r hc => ?_⟩
  rw [h] at hc
  cases hc

/-- Instance of amended C11: the one-byte buffer `[7]` makes the decoder panic
on index 1. -/
theorem odd_length_panics_witness :
    bytesTouint16 [7] = .error (.byteIndex 1) :=
  (odd_length_panics [7] (by decide)).1

/-! ## The scenario `add r0, r1, 4; out r0` -/

/-- C12: scenario run.  From the state with memory image
`[9, 32768, 32769, 4, 19, 32768]`, all other cells and registers zero, empty
stack and program counter 0, the first step executes `add r0, r1, 4` and leaves
register 0 = 4 with program counter 4 and no output; the second step executes
`out r0`, prints exactly the character with code 4 and leaves the address space
(memory and registers) and the stack unchanged. -/
theorem scenario_add_out (inp : List Nat) :
    ∃ o1 o2, machine (load [9, 32768, 32769, 4, 19, 32768]) inp = .ok o1 ∧
      reg o1.st.mem 0 = 4 ∧ o1.st.pi = 4 ∧ o1.out = [] ∧ o1.st.stk = [] ∧
      machine o1.st o1.inp = .ok o2 ∧
      o2.out = [4] ∧ o2.st.mem = o1.st.mem ∧ o2.st.stk = o1.st.stk ∧ o2.st.pi = 6 ∧
      o2.inp = inp ∧ o2.st.fin = false :=
  ⟨_, _, rfl, rfl, rfl, rfl, rfl, rfl, rfl, rfl, rfl, rfl, rfl, rfl⟩

/-! ## The break predicates -/

theorem doBreakDef_eq (st : state) (hp : st.pi < memSize) :
    doBreakDef st = .ok (decide (st.mem st.pi ≠ op_out)) := by
  simp only [doBreakDef, rd_ok _ _ hp, bind, Except.bind]
  by_cases h : st.mem st.pi = op_out
  · simp [h]
  · simp [h]

theorem doBreak_def (st : state) (hp : st.pi < memSize) :
    doBreak .doBreakDef st = .ok (decide (st.mem st.pi ≠ op_out), .doBreakDef) := by
  simp only [doBreak, doBreakDef_eq st hp, bind, Except.bind]

theorem doBreak_cf (st : state) (cs : Int) (hp : st.pi < memSize) :
    doBreak (.doBreakCf cs) st = .ok (decide (cs = 0),
      if cs = 0 then .doBreakDef
      else .doBreakCf (if st.mem st.pi = op_call then cs + 1
        else if st.mem st.pi = op_ret then cs - 1 else cs)) := by
  simp only [doBreak, rd_ok _ _ hp, bind, Except.bind]
  by_cases h : cs = 0
  · simp [h]
  · simp [h]

theorem doBreak_ok_lt (f : breaker) (st : state) (r : Bool × breaker)
    (h : doBreak f st = .ok r) : st.pi < memSize := by
  by_contra hn
  have hr : rd st.mem st.pi = .error (.memIndex st.pi) := rd_err _ _ (Nat.le_of_not_lt hn)
  cases f with
  | doBreakDef =>
    simp only [doBreak, doBreakDef, hr, bind, Except.bind] at h
    cases h
  | doBreakCf cs =>
    simp only [doBreak, hr, bind, Except.bind] at h
    cases h

theorem command_paused (cmd : List Nat) (d : dbg) (rest : List Nat) (t : turn)
    (h : command cmd d rest = .ok t) : t.paused = true ∧ t.pc = d.st.pi := by
  unfold command at h
  split at h
  · cases h; exact ⟨rfl, rfl⟩
  · split at h
    · cases hd : disloop d.st.mem d.st.pi with
      | error e => simp [hd, bind, Except.bind] at h
      | ok lines =>
        simp only [hd, bind, Except.bind] at h
        cases h; exact ⟨rfl, rfl⟩
    · split at h
      · cases h; exact ⟨rfl, rfl⟩
      · cases hm : machine d.st rest with
        | error e => simp [hm, bind, Except.bind] at h
        | ok o =>
          simp only [hm, bind, Except.bind] at h
          cases h; exact ⟨rfl, rfl⟩

/-- One iteration of the debugger loop when `doBreak()` returns `false`. -/
theorem debuggerIter_run (d : dbg) (f : breaker) (hfin : d.st.fin = false)
    (hb : doBreak d.doBreak d.st = .ok (false, f)) :
    debuggerIter d = (machine d.st d.inp).map (fun o =>
      some ⟨d.st.pi, false, true, o.out.map .chr, { st := o.st, doBreak := f, inp := o.inp }⟩) := by
  simp only [debuggerIter, hfin, hb, bind, Except.bind]
  cases machine d.st d.inp <;> rfl

/-- One iteration of the debugger loop when `doBreak()` returns `true`. -/
theorem debuggerIter_pause (d : dbg) (f : breaker) (hfin : d.st.fin = false)
    (hb : doBreak d.doBreak d.st = .ok (true, f)) :
    debuggerIter d = (command (readLine d.inp).1 { d with doBreak := f } (readLine d.inp).2).map
      some := by
  simp only [debuggerIter, hfin, hb, bind, Except.bind]
  cases command (readLine d.inp).1 { d with doBreak := f } (readLine d.inp).2 <;> rfl

/-- C13: default break predicate.  In Default mode, for every machine state
(with the program counter inside the address space) the predicate answers
"pause" exactly when the word at the program counter is not the `out` opcode
19: never before an `out`, always before anything else, undecodable words
included; and an iteration of the debugger loop that starts in Default mode on a
non-halted state reads a command line exactly in that case. -/
theorem default_break (st : state) (hp : st.pi < memSize) :
    doBreakDef st = .ok (decide (st.mem st.pi ≠ op_out)) ∧
    doBreak .doBreakDef st = .ok (decide (st.mem st.pi ≠ op_out), .doBreakDef) ∧
    (st.mem st.pi = op_out → doBreakDef st = .ok false) ∧
    (st.mem st.pi ≠ op_out → doBreakDef st = .ok true) ∧
    (21 < st.mem st.pi → doBreakDef st = .ok true) ∧
    (st.fin = false → ∀ inp t, debuggerIter (debuggerStart st inp) = .ok (some t) →
      (t.paused = true ↔ st.mem st.pi ≠ op_out)) := by
  have h1 := doBreakDef_eq st hp
  refine ⟨h1, doBreak_def st hp, ?_, ?_, ?_, ?_⟩
  · intro h
    rw [h1]
    simp [h]
  · intro h
    rw [h1]
    simp [h]
  · intro h
    have hne : st.mem st.pi ≠ op_out := by
      show st.mem st.pi ≠ 19
      omega
    rw [h1]
    simp [hne]
  · intro hfin inp t ht
    by_cases h : st.mem st.pi = op_out
    · have hb : doBreak (debuggerStart st inp).doBreak (debuggerStart st inp).st
          = .ok (false, .doBreakDef) := by
        show doBreak .doBreakDef st = _
        rw [doBreak_def st hp]
        simp [h]
      rw [debuggerIter_run _ _ hfin hb] at ht
      cases hm : machine (debuggerStart st inp).st (debuggerStart st inp).inp with
      | error e => simp [hm, Except.map] at ht
      | ok o =>
        simp only [hm, Except.map] at ht
        cases ht
        simp [h]
    · have hb : doBreak (debuggerStart st inp).doBreak (debuggerStart st inp).st
          = .ok (true, .doBreakDef) := by
        show doBreak .doBreakDef st = _
        rw [doBreak_def st hp]
        simp [h]
      rw [debuggerIter_pause _ _ hfin hb] at ht
      cases hc : command (readLine (debuggerStart st inp).inp).1
          { debuggerStart st inp with doBreak := .doBreakDef }
          (readLine (debuggerStart st inp).inp).2 with
      | error e => simp [hc, Except.map] at ht
      | ok t' =>
        simp only [hc, Except.map] at ht
        cases ht
        simp [h, (command_paused _ _ _ _ hc).1]

/-- Instance of C13: before `out 65` the default predicate does not pause,
before `noop` and before the undecodable word 22 it does. -/
theorem default_break_witness :
    doBreakDef (load [19, 65]) = .ok false ∧ doBreakDef (load [21]) = .ok true ∧
    doBreakDef (load [22]) = .ok true :=
  ⟨(default_break (load [19, 65]) (by decide)).2.2.1 rfl,
   (default_break (load [21]) (by decide)).2.2.2.1 (by decide),
   (default_break (load [22]) (by decide)).2.2.2.2.1 (by decide)⟩

/-! ## The run-to-return predicate -/

theorem command_cf (d : dbg) (rest : List Nat) :
    command cmd_cf d rest
      = .ok ⟨d.st.pi, true, false, [], { d with doBreak := .doBreakCf 1, inp := rest }⟩ := by
  simp [command]

/-- C15, as the claim states it, fails: with the counter at 1 and a `ret` as the
next instruction the depth after the decrement is 0, yet the predicate does not
pause: it checks the depth 1 from before the decrement and stays installed with
counter 0. -/
theorem cf_checks_before_decrement :
    (load [18]).mem (load [18]).pi = op_ret ∧ (1 : Int) - 1 = 0 ∧
    doBreak (.doBreakCf 1) (load [18]) = .ok (false, .doBreakCf 0) := by
  refine ⟨rfl, by decide, ?_⟩
  rw [doBreak_cf (load [18]) 1 (by decide)]
  rfl

/-- C15 (amended): the command `cf` installs the run-to-return predicate with
its counter at 1 and executes nothing.  Evaluated before an instruction, the
predicate checks the counter as it is before this instruction adjusts it (before
the increment for `call`, before the decrement for `ret`): it pauses and reverts
to Default exactly when that value is 0, and otherwise does not pause and keeps
the counter incremented at a `call`, decremented at a `ret`, unchanged
elsewhere. -/
theorem cf_predicate (st : state) (cs : Int) (hp : st.pi < memSize) :
    (∀ d rest, ∃ t, command cmd_cf d rest = .ok t ∧ t.next.doBreak = .doBreakCf 1 ∧
      t.next.st = d.st ∧ t.ran = false) ∧
    (∃ r, doBreak (.doBreakCf cs) st = .ok r ∧ (r.1 = true ↔ cs = 0)) ∧
    (cs = 0 → doBreak (.doBreakCf cs) st = .ok (true, .doBreakDef)) ∧
    (cs ≠ 0 → st.mem st.pi = op_call →
      doBreak (.doBreakCf cs) st = .ok (false, .doBreakCf (cs + 1))) ∧
    (cs ≠ 0 → st.mem st.pi = op_ret →
      doBreak (.doBreakCf cs) st = .ok (false, .doBreakCf (cs - 1))) ∧
    (cs ≠ 0 → st.mem st.pi ≠ op_call → st.mem st.pi ≠ op_ret →
      doBreak (.doBreakCf cs) st = .ok (false, .doBreakCf cs)) := by
  have h := doBreak_cf st cs hp
  refine ⟨fun d rest => ⟨_, command_cf d rest, rfl, rfl, rfl⟩, ⟨_, h, by simp⟩, ?_, ?_, ?_, ?_⟩
  · intro h0
    rw [h]
    simp [h0]
  · intro h0 hc
    rw [h]
    simp [h0, hc]
  · intro h0 hr
    rw [h]
    simp [h0, hr]
  · intro h0 hc hr
    rw [h]
    simp [h0, hc, hr]

/-- Instance of amended C15: with counter 2 before a `call` the predicate does
not pause and the counter becomes 3; with counter 0 it pauses and reverts. -/
theorem cf_predicate_witness :
    doBreak (.doBreakCf 2) (load [17, 4]) = .ok (false, .doBreakCf (2 + 1)) ∧
    doBreak (.doBreakCf 0) (load [17, 4]) = .ok (true, .doBreakDef) :=
  ⟨(cf_predicate (load [17, 4]) 2 (by decide)).2.2.2.1 (by decide) rfl,
   (cf_predicate (load [17, 4]) 0 (by decide)).2.2.1 rfl⟩

/-! ## The command `cf` -/

theorem debugger_succ (n : Nat) (d : dbg) :
    debugger (n + 1) d =
      match debuggerIter d with
      | .error e => .error e
      | .ok none => .ok []
      | .ok (some t) =>
        match debugger n t.next with
        | .error e => .error e
        | .ok ts => .ok (t :: ts) := rfl

theorem opargs_le (ins : Nat) : opargs ins ≤ 3 := by
  simp only [opargs, opargsTable, List.lookup]
  repeat' split
  all_goals decide

theorem opargs_undecodable (ins : Nat) (h : 21 < ins) : opargs ins = 0 := by
  simp only [opargs, opargsTable, List.lookup]
  repeat' split
  all_goals first
    | rfl
    | (rename_i hh; have e := eq_of_beq hh; subst e; exact absurd h (by decide))

theorem slice_operands (mem : Nat → Nat) (a : Nat) (h : a + 1 + opargs (mem a) ≤ memSize) :
    slice mem (w16 (a + 1)) (w16 (a + 1 + opargs (mem a))) = .ok (operands mem a) := by
  have h' : a + 1 + opargs (mem a) ≤ 32776 := h
  have w1 : w16 (a + 1) = a + 1 := w16_small _ (by omega)
  have w2 : w16 (a + 1 + opargs (mem a)) = a + 1 + opargs (mem a) := w16_small _ (by omega)
  rw [w1, w2]
  unfold slice
  rw [if_pos ⟨h, by omega⟩]
  have e : a + 1 + opargs (mem a) - (a + 1) = opargs (mem a) := by omega
  rw [e]
  rfl

theorem disloop_stop (mem : Nat → Nat) (a : Nat) (ha : a < memSize)
    (hs : mem a = op_halt ∨ mem a = op_ret) :
    disloop mem a = .ok [disline (mem a) (operands mem a)] := by
  have h0 : opargs (mem a) = 0 := by
    rcases hs with h | h <;> rw [h] <;> rfl
  have hle : a + 1 + opargs (mem a) ≤ memSize := by
    rw [h0]
    show a + 1 + 0 ≤ 32776
    have : a < 32776 := ha
    omega
  rw [disloop, dif_pos ha]
  simp only [slice_operands mem a hle, if_pos hs]

theorem disloop_step (mem : Nat → Nat) (a : Nat)
    (hle : a + 1 + opargs (mem a) ≤ memSize) (hs : ¬ (mem a = op_halt ∨ mem a = op_ret)) :
    disloop mem a = (disloop mem (a + 1 + opargs (mem a))).map
      (fun rest => disline (mem a) (operands mem a) :: rest) := by
  have h' : a + 1 + opargs (mem a) ≤ 32776 := hle
  have ha : a < memSize := show a < 32776 by omega
  have w2 : w16 (a + 1 + opargs (mem a)) = a + 1 + opargs (mem a) := w16_small _ (by omega)
  rw [disloop, dif_pos ha]
  simp only [slice_operands mem a hle, if_neg hs]
  rw [w2]
  cases disloop mem (a + 1 + opargs (mem a)) <;> rfl

theorem disloop_decodes (mem : Nat → Nat) : ∀ (addrs : List Nat) (a : Nat),
    decodes mem a addrs = true →
    disloop mem a = .ok (addrs.map (fun b => disline (mem b) (operands mem b))) := by
  intro addrs
  induction addrs with
  | nil =>
    intro a h
    cases h
  | cons b tl ih =>
    intro a h
    cases tl with
    | nil =>
      simp only [decodes, decide_eq_true_eq] at h
      obtain ⟨hb, ha, hs⟩ := h
      subst hb
      rw [disloop_stop mem b ha hs]
      rfl
    | cons c rest =>
      simp only [decodes, Bool.and_eq_true, decide_eq_true_eq] at h
      obtain ⟨⟨hb, hle, hs⟩, hrest⟩ := h
      subst hb
      rw [disloop_step mem b hle hs, ih _ hrest]
      rfl

theorem command_d (d : dbg) (rest : List Nat) (lines : List String)
    (h : disloop d.st.mem d.st.pi = .ok lines) :
    command cmd_d d rest
      = .ok ⟨d.st.pi, true, false, lines.map .str, { d with inp := rest }⟩ := by
  have hne : ¬ (cmd_d = cmd_w) := by decide
  simp only [command, if_neg hne, if_true, h, bind, Except.bind]

/-- C16: disassembly listing.  When linear decoding from the program counter
reaches a `halt` or `ret` (the instructions lying at the addresses `addrs`, each
occupying `1 + opargs` words), the command `d` prints exactly one line per
instruction, in address order from the program counter up to and including the
first `halt` or `ret`, executes nothing and changes nothing.  A line is the
opcode name followed by the operand words, a word below 32768 as its decimal
number and a word `32768 + n` as `<n>`.  The region `set r0,5 / out r0 / ret`
gives the three lines `op_set: [<0> 5]`, `op_out: [<0>]`, `op_ret: []`. -/
theorem disassembly (d : dbg) (rest : List Nat) (addrs : List Nat)
    (h : decodes d.st.mem d.st.pi addrs = true) :
    command cmd_d d rest = .ok ⟨d.st.pi, true, false,
      (addrs.map (fun b => disline (d.st.mem b) (operands d.st.mem b))).map .str,
      { d with inp := rest }⟩ ∧
    addrs.head? = some d.st.pi ∧
    (∀ b, disline (d.st.mem b) (operands d.st.mem b)
      = opnames (d.st.mem b) ++ ": " ++ fmtSlice (argsString (operands d.st.mem b)) ++ "\n") ∧
    (∀ e, e < 32768 → argsString [e] = [toString e]) ∧
    (∀ n, n < 32768 → argsString [32768 + n] = ["<" ++ toString n ++ ">"]) ∧
    disloop (load [1, 32768, 5, 19, 32768, 18]).mem 0
      = .ok ["op_set: [<0> 5]\n", "op_out: [<0>]\n", "op_ret: []\n"] := by
  refine ⟨command_d d rest _ (disloop_decodes d.st.mem addrs d.st.pi h), ?_, fun b => rfl,
    ?_, ?_, ?_⟩
  · cases addrs with
    | nil => cases h
    | cons b tl =>
      cases tl with
      | nil =>
        simp only [decodes, decide_eq_true_eq] at h
        rw [h.1]
        rfl
      | cons c tl' =>
        simp only [decodes, Bool.and_eq_true, decide_eq_true_eq] at h
        rw [h.1.1]
        rfl
  · intro e he
    have he' : e < modk := he
    simp [argsString, he']
  · intro n hn
    have h1 : ¬ (32768 + n < modk) := by
      show ¬ (32768 + n < 32768)
      omega
    have h2 : w16 (32768 + n - modk) = n := by
      have e : 32768 + n - modk = n := by
        show 32768 + n - 32768 = n
        omega
      rw [e]
      exact w16_small n (by omega)
    simp [argsString, h1, h2, w16_small n (by omega)]
  · rw [disloop_decodes (load [1, 32768, 5, 19, 32768, 18]).mem [0, 3, 5] 0 (by decide)]
    exact congrArg Except.ok (by decide)

/-- Instance of C16: the region `jt r1,7 / push 300 / halt` at address 0 is
listed by `d` as three lines, and the machine state is left as it was. -/
theorem disassembly_witness :
    ∃ t, command cmd_d (debuggerStart (load [7, 32769, 7, 2, 300, 0]) [100, 10]) []
        = .ok t ∧
      t.out = [.str "op_jt: [<1> 7]\n", .str "op_push: [300]\n", .str "op_halt: []\n"] ∧
      t.ran = false ∧ t.next.st.pi = 0 :=
  ⟨_, (disassembly (debuggerStart (load [7, 32769, 7, 2, 300, 0]) [100, 10]) [] [0, 3, 5]
      (by decide)).1, by decide, rfl, rfl⟩

/-! ## The command interpreter -/

theorem command_other (cmd : List Nat) (d : dbg) (rest : List Nat)
    (hw : cmd ≠ cmd_w) (hd : cmd ≠ cmd_d) (hcf : cmd ≠ cmd_cf) :
    command cmd d rest = (machine d.st rest).map (fun o =>
      ⟨d.st.pi, true, true, o.out.map .chr, ⟨o.st, d.doBreak, o.inp⟩⟩) := by
  simp only [command, if_neg hw, if_neg hd, if_neg hcf, bind, Except.bind]
  cases machine d.st rest <;> rfl

theorem command_w (d : dbg) (rest : List Nat) :
    command cmd_w d rest
      = .ok ⟨d.st.pi, true, false, [.str (whereText d.st)], { d with inp := rest }⟩ := by
  simp [command]

/-- C17: permissive command parser.  For every paused debugger and every command
line other than `w`, `d` and `cf`, the command switch rejects nothing and does
exactly what it does for the empty line: it calls `machine` once on the current
state, under the predicate in force, and the loop goes on to its next
iteration; the only failure possible is a panic of that machine step itself. -/
theorem unknown_command (cmd : List Nat) (d : dbg) (rest : List Nat)
    (hw : cmd ≠ cmd_w) (hd : cmd ≠ cmd_d) (hcf : cmd ≠ cmd_cf) :
    command cmd d rest = command [] d rest ∧
    command cmd d rest = (machine d.st rest).map (fun o =>
      ⟨d.st.pi, true, true, o.out.map .chr, ⟨o.st, d.doBreak, o.inp⟩⟩) ∧
    (∀ o, machine d.st rest = .ok o →
      ∃ t, command cmd d rest = .ok t ∧ t.ran = true ∧ t.next.st = o.st ∧
        t.next.doBreak = d.doBreak ∧ t.next.inp = o.inp) ∧
    (∀ e, command cmd d rest = .error e → machine d.st rest = .error e) := by
  have h1 := command_other cmd d rest hw hd hcf
  have h2 := command_other [] d rest (by decide) (by decide) (by decide)
  refine ⟨by rw [h1, h2], h1, ?_, ?_⟩
  · intro o ho
    rw [h1, ho]
    exact ⟨_, rfl, rfl, rfl, rfl, rfl⟩
  · intro e he
    rw [h1] at he
    cases hm : machine d.st rest with
    | error e' =>
      rw [hm] at he
      simp only [Except.map] at he
      cases he
      rfl
    | ok o =>
      rw [hm] at he
      cases he

/-- Instance of C17: the command line `x` (code 120) at `add r0, r1, 4` executes
that instruction, as the empty line does. -/
theorem unknown_command_witness :
    command [120] (debuggerStart (load [9, 32768, 32769, 4]) []) []
      = command [] (debuggerStart (load [9, 32768, 32769, 4]) []) [] ∧
    ∃ t, command [120] (debuggerStart (load [9, 32768, 32769, 4]) []) [] = .ok t ∧
      t.ran = true ∧ t.next.st.pi = 4 ∧ t.next.st.mem 32768 = 4 := by
  have h := unknown_command [120] (debuggerStart (load [9, 32768, 32769, 4]) []) []
    (by decide) (by decide) (by decide)
  refine ⟨h.1, ?_⟩
  obtain ⟨t, ht, hr, hs, _, _⟩ := h.2.2.1 _ rfl
  exact ⟨t, ht, hr, by rw [hs]; rfl, by rw [hs]; rfl⟩

/-! ## Transparency of the debugger -/

theorem charsOf_chr (l : List Nat) : charsOf (l.map .chr) = l := by
  induction l with
  | nil => rfl
  | cons c l ih => simp only [List.map_cons, charsOf, ih]

theorem charsOf_str (l : List String) : charsOf (l.map .str) = [] := by
  induction l with
  | nil => rfl
  | cons c l ih => simp only [List.map_cons, charsOf, ih]

/-- What the command switch does to the machine and to the input: either no
instruction is run, the state is left alone and the input is the one left after
the command line, or `machine` is applied once to the state and to that
input. -/
theorem command_step (cmd : List Nat) (d : dbg) (rest : List Nat) (t : turn)
    (h : command cmd d rest = .ok t) :
    (t.ran = false ∧ t.next.st = d.st ∧ t.next.inp = rest ∧ charsOf t.out = []) ∨
    (t.ran = true ∧ ∃ o, machine d.st rest = .ok o ∧ t.next.st = o.st ∧
      t.next.inp = o.inp ∧ charsOf t.out = o.out) := by
  by_cases hw : cmd = cmd_w
  · rw [hw, command_w] at h
    cases h
    exact Or.inl ⟨rfl, rfl, rfl, rfl⟩
  · by_cases hd : cmd = cmd_d
    · rw [hd] at h
      cases hl : disloop d.st.mem d.st.pi with
      | error e =>
        simp [command, hl, bind, Except.bind] at h
      | ok lines =>
        rw [command_d d rest lines hl] at h
        cases h
        exact Or.inl ⟨rfl, rfl, rfl, charsOf_str lines⟩
    · by_cases hcf : cmd = cmd_cf
      · rw [hcf, command_cf] at h
        cases h
        exact Or.inl ⟨rfl, rfl, rfl, rfl⟩
      · rw [command_other cmd d rest hw hd hcf] at h
        cases hm : machine d.st rest with
        | error e =>
          rw [hm] at h
          cases h
        | ok o =>
          rw [hm] at h
          simp only [Except.map] at h
          cases h
          exact Or.inr ⟨rfl, o, rfl, rfl, rfl, charsOf_chr o.out⟩

/-- What one iteration of the debugger loop does to the machine and to the
input.  The input that counts is the standard input as it stands: after the
command line when the debugger has paused, untouched otherwise. -/
theorem debuggerIter_step (d : dbg) (t : turn) (h : debuggerIter d = .ok (some t)) :
    (t.ran = false ∧ t.paused = true ∧ t.next.st = d.st ∧
      t.next.inp = (readLine d.inp).2 ∧ charsOf t.out = []) ∨
    (t.ran = true ∧
      ∃ o, machine d.st (if t.paused then (readLine d.inp).2 else d.inp) = .ok o ∧
        t.next.st = o.st ∧ t.next.inp = o.inp ∧ charsOf t.out = o.out) := by
  by_cases hfin : d.st.fin = true
  · simp [debuggerIter, hfin] at h
  · have hfin' : d.st.fin = false := by simpa using hfin
    cases hb : doBreak d.doBreak d.st with
    | error e =>
      simp only [debuggerIter, hfin', hb, bind, Except.bind] at h
      cases h
    | ok r =>
      obtain ⟨b, f⟩ := r
      cases b with
      | true =>
        rw [debuggerIter_pause d f hfin' hb] at h
        cases hc : command (readLine d.inp).1 { d with doBreak := f } (readLine d.inp).2 with
        | error e =>
          rw [hc] at h
          cases h
        | ok t' =>
          rw [hc] at h
          simp only [Except.map] at h
          cases h
          have hpa := (command_paused _ { d with doBreak := f } _ _ hc).1
          rcases command_step _ { d with doBreak := f } _ _ hc with
            ⟨hr, hs, hi, ho⟩ | ⟨hr, o, hm, hs, hi, ho⟩
          · exact Or.inl ⟨hr, hpa, hs, hi, ho⟩
          · refine Or.inr ⟨hr, o, ?_, hs, hi, ho⟩
            rw [hpa, if_pos rfl]
            exact hm
      | false =>
        rw [debuggerIter_run d f hfin' hb] at h
        cases hm : machine d.st d.inp with
        | error e =>
          rw [hm] at h
          cases h
        | ok o =>
          rw [hm] at h
          simp only [Except.map] at h
          cases h
          exact Or.inr ⟨rfl, o, hm, rfl, rfl, charsOf_chr o.out⟩

theorem endDbg_cons (d : dbg) (t : turn) (ts : List turn) :
    endDbg d (t :: ts) = endDbg t.next ts := by
  cases ts with
  | nil => rfl
  | cons t' ts' =>
    simp only [endDbg, List.getLast?_cons_cons]
    cases hl : (t' :: ts').getLast? with
    | none => simp at hl
    | some t2 => rfl

/-- The debugger loop and the machine on its own end in the same state, with
the same input left, the same characters printed and as many applications of
`machine` as iterations that ran an instruction. -/
theorem debugger_replay : ∀ (k : Nat) (d : dbg) (ts : List turn),
    debugger k d = .ok ts →
    replay d.st d.inp ts = .ok ((endDbg d ts).st, (endDbg d ts).inp, printedBy ts,
      ts.countP (fun t => t.ran)) := by
  intro k
  induction k with
  | zero =>
    intro d ts h
    cases h
    rfl
  | succ k ih =>
    intro d ts h
    rw [debugger_succ] at h
    cases hi : debuggerIter d with
    | error e =>
      rw [hi] at h
      cases h
    | ok r =>
      cases r with
      | none =>
        rw [hi] at h
        cases h
        rfl
      | some t =>
        rw [hi] at h
        simp only at h
        cases hd : debugger k t.next with
        | error e =>
          rw [hd] at h
          cases h
        | ok ts' =>
          rw [hd] at h
          cases h
          have hrec := ih t.next ts' hd
          rw [endDbg_cons]
          rcases debuggerIter_step d t hi with
            ⟨hr, hpa, hs, hin, ho⟩ | ⟨hr, o, hm, hs, hin, ho⟩
          · rw [List.countP_cons_of_neg _ _ (by simp [hr])]
            simp only [replay, hr, hpa, if_true, Bool.false_eq_true, if_false, printedBy, ho,
              List.nil_append]
            rw [← hs, ← hin]
            exact hrec
          · rw [List.countP_cons_of_pos _ _ (by simp [hr])]
            simp only [replay, hr, if_true, hm, printedBy, ho]
            rw [← hs, ← hin, hrec]

theorem command_wd_next (d : dbg) (rest : List Nat) (t : turn)
    (h : command cmd_w d rest = .ok t ∨ command cmd_d d rest = .ok t) :
    t.ran = false ∧ t.next = { d with inp := rest } := by
  rcases h with h | h
  · rw [command_w] at h
    cases h
    exact ⟨rfl, rfl⟩
  · cases hl : disloop d.st.mem d.st.pi with
    | error e =>
      simp [command, hl, bind, Except.bind] at h
    | ok lines =>
      rw [command_d d rest lines hl] at h
      cases h
      exact ⟨rfl, rfl⟩

theorem doBreak_true (f : breaker) (st : state) (g : breaker)
    (h : doBreak f st = .ok (true, g)) : g = .doBreakDef := by
  have hp := doBreak_ok_lt f st _ h
  cases f with
  | doBreakDef =>
    rw [doBreak_def st hp] at h
    exact (Prod.mk.inj (Except.ok.inj h)).2.symm
  | doBreakCf cs =>
    rw [doBreak_cf st cs hp] at h
    by_cases hcs : cs = 0
    · simp only [hcs, if_true] at h
      exact (Prod.mk.inj (Except.ok.inj h)).2.symm
    · simp [hcs] at h

theorem iter_default_paused (d : dbg) (hmode : d.doBreak = .doBreakDef)
    (hfin : d.st.fin = false) (t : turn) (h : debuggerIter d = .ok (some t)) :
    (t.paused = true ↔ d.st.mem d.st.pi ≠ op_out) ∧ t.pc = d.st.pi := by
  have hp : d.st.pi < memSize := by
    by_contra hn
    have hb : doBreak d.doBreak d.st = .error (.memIndex d.st.pi) := by
      rw [hmode]
      simp only [doBreak, doBreakDef, rd_err _ _ (Nat.le_of_not_lt hn), bind, Except.bind]
    have hi : debuggerIter d = .error (.memIndex d.st.pi) := by
      simp only [debuggerIter, hfin, hb, bind, Except.bind]
      rfl
    rw [hi] at h
    cases h
  by_cases hout : d.st.mem d.st.pi = op_out
  · have hb : doBreak d.doBreak d.st = .ok (false, .doBreakDef) := by
      rw [hmode, doBreak_def d.st hp]
      simp [hout]
    rw [debuggerIter_run d _ hfin hb] at h
    cases hm : machine d.st d.inp with
    | error e =>
      rw [hm] at h
      cases h
    | ok o =>
      rw [hm] at h
      simp only [Except.map] at h
      cases h
      simp [hout]
  · have hb : doBreak d.doBreak d.st = .ok (true, .doBreakDef) := by
      rw [hmode, doBreak_def d.st hp]
      simp [hout]
    rw [debuggerIter_pause d _ hfin hb] at h
    cases hc : command (readLine d.inp).1 { d with doBreak := .doBreakDef } (readLine d.inp).2 with
    | error e =>
      rw [hc] at h
      cases h
    | ok t' =>
      rw [hc] at h
      simp only [Except.map] at h
      cases h
      obtain ⟨h1, h2⟩ := command_paused _ { d with doBreak := .doBreakDef } _ _ hc
      exact ⟨by simp [h1, hout], h2⟩

/-- C18, as the claim states it, fails.  On `cfThenWhere` the empty line runs
the `call`, `cf` is read at address 5, and the function returns to address 2 in
front of `out 65`, where the run-to-return predicate pauses.  The command `w`
is read there and runs nothing, but the debugger does not stay paused: the
next iteration executes the `out` without reading a command. -/
theorem where_does_not_stay_paused :
    (debugger 7 cfThenWhere).toOption.map
        (fun ts => ts.map (fun t => (t.pc, t.paused, t.ran)))
      = some [(0, true, true), (5, true, false), (5, false, true), (6, false, true),
          (2, true, false), (2, false, true), (4, true, true)] := by
  decide

/-- C18 (amended): debugger transparency.  The commands `w` and `d` call
`machine` not at all and leave the machine state (memory, registers, stack,
program counter, halted flag) and the break predicate as they are, the input
being the one left after the command line.  At a pause the predicate in force
is the Default one, which the loop then evaluates on the unchanged state: the
debugger pauses again before the same instruction exactly when the next opcode
is not `out`.  Every iteration of the loop either runs nothing and leaves the
state alone, or applies `machine` once to the state and to the standard input as
it then stands (after the command line, if one was read).  Consequently,
whatever the command lines on standard input, after any number of iterations the
machine state, the input left and the characters printed are those obtained from
the initial state by as many applications of `machine` as the debugger has let
instructions run, each reading the standard input as it then stands. -/
theorem debugger_transparent (d : dbg) (rest : List Nat) :
    command cmd_w d rest
      = .ok ⟨d.st.pi, true, false, [.str (whereText d.st)], { d with inp := rest }⟩ ∧
    (∀ t, command cmd_d d rest = .ok t →
      t.ran = false ∧ t.paused = true ∧ t.next = { d with inp := rest } ∧
      charsOf t.out = []) ∧
    (∀ f st g, doBreak f st = .ok (true, g) → g = .doBreakDef) ∧
    (∀ t, command cmd_w d rest = .ok t ∨ command cmd_d d rest = .ok t →
      d.doBreak = .doBreakDef → d.st.fin = false →
      ∀ t2, debuggerIter t.next = .ok (some t2) →
        (t2.paused = true ↔ d.st.mem d.st.pi ≠ op_out) ∧ t2.pc = d.st.pi) ∧
    (∀ t, debuggerIter d = .ok (some t) →
      (t.ran = false ∧ t.paused = true ∧ t.next.st = d.st ∧
        t.next.inp = (readLine d.inp).2 ∧ charsOf t.out = []) ∨
      (t.ran = true ∧
        ∃ o, machine d.st (if t.paused then (readLine d.inp).2 else d.inp) = .ok o ∧
          t.next.st = o.st ∧ t.next.inp = o.inp ∧ charsOf t.out = o.out)) ∧
    (∀ k ts, debugger k d = .ok ts →
      replay d.st d.inp ts = .ok ((endDbg d ts).st, (endDbg d ts).inp, printedBy ts,
        ts.countP (fun t => t.ran))) := by
  refine ⟨command_w d rest, ?_, doBreak_true, ?_, fun t h => debuggerIter_step d t h,
    fun k ts h => debugger_replay k d ts h⟩
  · intro t h
    obtain ⟨hr, hn⟩ := command_wd_next d rest t (Or.inr h)
    have hpa := (command_paused _ d _ _ h).1
    rcases command_step _ d _ _ h with ⟨_, _, _, ho⟩ | ⟨hr2, _⟩
    · exact ⟨hr, hpa, hn, ho⟩
    · rw [hr] at hr2
      cases hr2
  · intro t h hmode hfin t2 h2
    obtain ⟨_, hn⟩ := command_wd_next d rest t h
    rw [hn] at h2
    exact iter_default_paused { d with inp := rest } hmode hfin t2 h2

/-- Instance of C18 on `whereDemo`: the debugger pauses at `in r0` and prints
for `w` without running anything, pauses there again and, for the empty line,
runs `in r0`, which reads the `A` that follows the two command lines; it pauses
at `in r1`, reads `cf`, and then runs `in r1`, which reads the `B` that follows,
`out r0` and `halt` without pausing.  The machine on its own, fed the input
less the command lines, ends in the same state after four steps, with
register 0 = 65, register 1 = 66, the input used up and `A` printed. -/
theorem debugger_transparent_witness :
    ∃ ts, debugger 8 whereDemo = .ok ts ∧
      ts.map (fun t => (t.pc, t.paused, t.ran)) = [(0, true, false), (0, true, true),
        (2, true, false), (2, false, true), (4, false, true), (6, false, true)] ∧
      replay whereDemo.st whereDemo.inp ts
        = .ok ((endDbg whereDemo ts).st, (endDbg whereDemo ts).inp, [65], 4) ∧
      (endDbg whereDemo ts).st.mem 32768 = 65 ∧ (endDbg whereDemo ts).st.mem 32769 = 66 ∧
      (endDbg whereDemo ts).st.fin = true ∧ (endDbg whereDemo ts).inp = [] :=
  ⟨_, rfl, by decide, (debugger_transparent whereDemo []).2.2.2.2.2 8 _ rfl, by decide,
    by decide, by decide, by decide⟩

/-! ## The program counter after a step -/

theorem machine_ok_lt (s : state) (inp : List Nat) (o : outcome) (hfin : s.fin = false)
    (h : machine s inp = .ok o) : s.pi < memSize := by
  by_contra hn
  simp only [machine, hfin, rd_err _ _ (Nat.le_of_not_lt hn), bind, Except.bind] at h
  cases h

theorem w16_w16_small (p k : Nat) (hp : p < 32776) (hk : k ≤ 3) :
    w16 (w16 (p + 1) + k) = p + 1 + k := by
  rw [w16_small (p + 1) (by omega), w16_small _ (by omega)]

theorem machine_jt_fall (s : state) (inp : List Nat) (o : outcome) (hfin : s.fin = false)
    (h : machine s inp = .ok o) (hop : s.mem s.pi = op_jt)
    (hc : getval s.mem (s.mem (s.pi + 1)) = .ok 0) : o.st.pi = s.pi + 1 + 2 := by
  have hp := machine_ok_lt s inp o hfin h
  have hp' : s.pi < 32776 := hp
  have w1 : w16 (s.pi + 1) = s.pi + 1 := w16_small _ (by omega)
  by_cases hp1 : s.pi + 1 < memSize
  · simp only [machine, hfin, rd_ok _ _ hp, hop, w1, rd_ok _ _ hp1, hc, bind, Except.bind] at h
    simp at h
    repeat' split at h
    all_goals first
      | (cases h; done)
      | (cases h; exact w16_small _ (by omega))
  · simp only [machine, hfin, rd_ok _ _ hp, hop, w1, rd_err _ _ (Nat.le_of_not_lt hp1), bind,
      Except.bind] at h
    simp at h

theorem machine_jf_fall (s : state) (inp : List Nat) (o : outcome) (hfin : s.fin = false)
    (h : machine s inp = .ok o) (hop : s.mem s.pi = op_jf)
    (hc : getval s.mem (s.mem (s.pi + 1)) ≠ .ok 0) : o.st.pi = s.pi + 1 + 2 := by
  have hp := machine_ok_lt s inp o hfin h
  have hp' : s.pi < 32776 := hp
  have w1 : w16 (s.pi + 1) = s.pi + 1 := w16_small _ (by omega)
  by_cases hp1 : s.pi + 1 < memSize
  · simp only [machine, hfin, rd_ok _ _ hp, hop, w1, rd_ok _ _ hp1, bind, Except.bind] at h
    simp at h
    cases hg : getval s.mem (s.mem (s.pi + 1)) with
    | error e =>
      rw [hg] at h
      cases h
    | ok c =>
      have hc0 : c ≠ 0 := by
        intro e
        rw [hg, e] at hc
        exact hc rfl
      rw [hg] at h
      simp only [hc0, if_false] at h
      repeat' split at h
      all_goals first
        | (cases h; done)
        | (cases h; exact w16_small _ (by omega))
  · simp only [machine, hfin, rd_ok _ _ hp, hop, w1, rd_err _ _ (Nat.le_of_not_lt hp1), bind,
      Except.bind] at h
    simp at h

set_option maxHeartbeats 4000000 in
/-- The program counter after a step at an opcode that never sets it directly. -/
theorem fallthrough_aux (s : state) (inp : List Nat) (o : outcome) (hfin : s.fin = false)
    (h : machine s inp = .ok o) (ins k : Nat) (hop : s.mem s.pi = ins)
    (hins : (ins, k) ∈ [(0, 0), (1, 2), (2, 1), (3, 1), (4, 3), (5, 3), (9, 3), (10, 3),
      (11, 3), (12, 3), (13, 3), (14, 2), (15, 2), (16, 2), (19, 1), (20, 1), (21, 0)]) :
    o.st.pi = s.pi + 1 + k := by
  have hp := machine_ok_lt s inp o hfin h
  have hp' : s.pi < 32776 := hp
  have w0 : w16 (s.pi + 1) = s.pi + 1 + 0 := w16_small _ (by omega)
  simp only [List.mem_cons, Prod.mk.injEq, List.mem_singleton, List.not_mem_nil, or_false] at hins
  rcases hins with c | c | c | c | c | c | c | c | c | c | c | c | c | c | c | c | c
  all_goals
    obtain ⟨rfl, rfl⟩ := c
    simp only [machine, hfin, rd_ok _ _ hp, hop, bind, Except.bind, ↓reduceIte, Nat.reduceEqDiff,
      op_halt, op_set, op_push, op_pop, op_eq, op_gt, op_jmp, op_jt, op_jf, op_add, op_mult,
      op_mod, op_and, op_or, op_not, op_rmem, op_wmem, op_call, op_ret, op_out, op_in, op_noop,
      Bool.false_eq_true] at h
    try simp at h
    repeat' split at h
    all_goals first
      | (cases h; done)
      | (cases h; exact w0)
      | (cases h; exact w16_w16_small _ _ hp' (by omega))

/-- C19: fall-through program counter and operand counts.  For each of the 22
opcodes and every non-halted state in which the step succeeds, unless the
instruction sets the counter directly (`jmp`, `call`, `ret`, a `jt` whose
condition is not zero, a `jf` whose condition is zero), the program counter
after the step is the counter before plus `1 + opargs[opcode]`, `opargs` being
the table of the disassembler: 0 for halt/ret/noop, 1 for
push/pop/jmp/call/out/in, 2 for set/jt/jf/not/rmem/wmem, 3 for
eq/gt/add/mult/mod/and/or. -/
theorem fallthrough_pc (s : state) (inp : List Nat) (o : outcome) (hfin : s.fin = false)
    (h : machine s inp = .ok o) (hop : s.mem s.pi ≤ 21)
    (hjmp : s.mem s.pi ≠ op_jmp) (hcall : s.mem s.pi ≠ op_call) (hret : s.mem s.pi ≠ op_ret)
    (hjt : s.mem s.pi = op_jt → getval s.mem (s.mem (s.pi + 1)) = .ok 0)
    (hjf : s.mem s.pi = op_jf → getval s.mem (s.mem (s.pi + 1)) ≠ .ok 0) :
    o.st.pi = s.pi + 1 + opargs (s.mem s.pi) ∧
    (opargs op_halt = 0 ∧ opargs op_ret = 0 ∧ opargs op_noop = 0) ∧
    (opargs op_push = 1 ∧ opargs op_pop = 1 ∧ opargs op_jmp = 1 ∧ opargs op_call = 1 ∧
      opargs op_out = 1 ∧ opargs op_in = 1) ∧
    (opargs op_set = 2 ∧ opargs op_jt = 2 ∧ opargs op_jf = 2 ∧ opargs op_not = 2 ∧
      opargs op_rmem = 2 ∧ opargs op_wmem = 2) ∧
    (opargs op_eq = 3 ∧ opargs op_gt = 3 ∧ opargs op_add = 3 ∧ opargs op_mult = 3 ∧
      opargs op_mod = 3 ∧ opargs op_and = 3 ∧ opargs op_or = 3) := by
  refine ⟨?_, by decide, by decide, by decide, by decide⟩
  have h6 : s.mem s.pi ≠ 6 := hjmp
  have h17 : s.mem s.pi ≠ 17 := hcall
  have h18 : s.mem s.pi ≠ 18 := hret
  have hcases : s.mem s.pi = 0 ∨ s.mem s.pi = 1 ∨ s.mem s.pi = 2 ∨ s.mem s.pi = 3 ∨
      s.mem s.pi = 4 ∨ s.mem s.pi = 5 ∨ s.mem s.pi = 7 ∨ s.mem s.pi = 8 ∨ s.mem s.pi = 9 ∨
      s.mem s.pi = 10 ∨ s.mem s.pi = 11 ∨ s.mem s.pi = 12 ∨ s.mem s.pi = 13 ∨
      s.mem s.pi = 14 ∨ s.mem s.pi = 15 ∨ s.mem s.pi = 16 ∨ s.mem s.pi = 19 ∨
      s.mem s.pi = 20 ∨ s.mem s.pi = 21 := by omega
  rcases hcases with e | e | e | e | e | e | e | e | e | e | e | e | e | e | e | e | e | e | e
  · rw [e]; exact fallthrough_aux s inp o hfin h 0 0 e (by decide)
  · rw [e]; exact fallthrough_aux s inp o hfin h 1 2 e (by decide)
  · rw [e]; exact fallthrough_aux s inp o hfin h 2 1 e (by decide)
  · rw [e]; exact fallthrough_aux s inp o hfin h 3 1 e (by decide)
  · rw [e]; exact fallthrough_aux s inp o hfin h 4 3 e (by decide)
  · rw [e]; exact fallthrough_aux s inp o hfin h 5 3 e (by decide)
  · rw [e]; exact machine_jt_fall s inp o hfin h e (hjt e)
  · rw [e]; exact machine_jf_fall s inp o hfin h e (hjf e)
  · rw [e]; exact fallthrough_aux s inp o hfin h 9 3 e (by decide)
  · rw [e]; exact fallthrough_aux s inp o hfin h 10 3 e (by decide)
  · rw [e]; exact fallthrough_aux s inp o hfin h 11 3 e (by decide)
  · rw [e]; exact fallthrough_aux s inp o hfin h 12 3 e (by decide)
  · rw [e]; exact fallthrough_aux s inp o hfin h 13 3 e (by decide)
  · rw [e]; exact fallthrough_aux s inp o hfin h 14 2 e (by decide)
  · rw [e]; exact fallthrough_aux s inp o hfin h 15 2 e (by decide)
  · rw [e]; exact fallthrough_aux s inp o hfin h 16 2 e (by decide)
  · rw [e]; exact fallthrough_aux s inp o hfin h 19 1 e (by decide)
  · rw [e]; exact fallthrough_aux s inp o hfin h 20 1 e (by decide)
  · rw [e]; exact fallthrough_aux s inp o hfin h 21 0 e (by decide)

/-- Instances of C19: after `set r0, 5` at address 0 the program counter is
`0 + 1 + 2`; after `jt 0, 9` (condition zero) it is `0 + 1 + 2` as well. -/
theorem fallthrough_pc_witness :
    (∃ o, machine (load [1, 32768, 5]) [] = .ok o ∧ o.st.pi = 3) ∧
    (∃ o, machine (load [7, 0, 9]) [] = .ok o ∧ o.st.pi = 3) :=
  ⟨⟨_, rfl, (fallthrough_pc (load [1, 32768, 5]) [] _ rfl rfl (by decide) (by decide)
      (by decide) (by decide) (fun e => absurd e (by decide))
      (fun e => absurd e (by decide))).1⟩,
   ⟨_, rfl, (fallthrough_pc (load [7, 0, 9]) [] _ rfl rfl (by decide) (by decide)
      (by decide) (by decide) (fun _ => rfl) (fun e => absurd e (by decide))).1⟩⟩

/-! ## Agreement of the two engines -/

set_option maxHeartbeats 8000000 in
theorem iter_agree_plain (tok : List Nat → Except Fault (List Nat)) (v : vm) (inp : List Nat)
    (hd : v.dbgmd = false) (hp : v.pi < memSize) (ins : Nat) (hop : v.mem v.pi = ins)
    (hins : ins ∈ [0, 1, 2, 3, 4, 5, 6, 7, 8, 9, 10, 11, 12, 13, 14, 15, 16, 17, 18, 19, 21]) :
    (standaloneIter tok v inp).map flow.view = machine (v.view false) inp ∧
    ∀ f, standaloneIter tok v inp = .ok f → f.quiet := by
  simp only [List.mem_cons, List.mem_singleton, List.not_mem_nil, or_false] at hins
  rcases hins with rfl | rfl | rfl | rfl | rfl | rfl | rfl | rfl | rfl | rfl | rfl | rfl | rfl |
    rfl | rfl | rfl | rfl | rfl | rfl | rfl | rfl
  all_goals
    simp only [standaloneIter, machine, vm.view, hd, rd_ok _ _ hp, hop, bind, Except.bind, pure,
      Except.pure, ↓reduceIte, Nat.reduceEqDiff, op_halt, op_set, op_push, op_pop, op_eq, op_gt,
      op_jmp, op_jt, op_jf, op_add, op_mult, op_mod, op_and, op_or, op_not, op_rmem, op_wmem,
      op_call, op_ret, op_out, op_in, op_noop, Bool.false_eq_true]
    try simp
    constructor
    · repeat' split
      all_goals rfl
    · first
        | exact ⟨rfl, rfl⟩
        | (intro f hf
           repeat' split at hf
           all_goals first
             | (cases hf; done)
             | (cases hf; exact ⟨rfl, rfl⟩))

theorem iter_agree_in (tok : List Nat → Except Fault (List Nat)) (v : vm) (inp : List Nat)
    (hd : v.dbgmd = false) (hp : v.pi < memSize) (hop : v.mem v.pi = op_in)
    (h37 : inp.head? ≠ some 37) (h43 : inp.head? ≠ some 43) :
    (standaloneIter tok v inp).map flow.view = machine (v.view false) inp ∧
    ∀ f, standaloneIter tok v inp = .ok f → f.quiet := by
  have hc37 : (scanc 0 inp).1 ≠ 37 := by
    cases inp with
    | nil => simp [scanc]
    | cons r rest =>
      intro e
      exact h37 (by simp [scanc] at e; simp [e])
  have hc43 : (scanc 0 inp).1 ≠ 43 := by
    cases inp with
    | nil => simp [scanc]
    | cons r rest =>
      intro e
      exact h43 (by simp [scanc] at e; simp [e])
  simp only [standaloneIter, machine, vm.view, hd, rd_ok _ _ hp, hop, bind, Except.bind, pure,
    Except.pure, ↓reduceIte, Nat.reduceEqDiff, op_halt, op_set, op_push, op_pop, op_eq, op_gt,
    op_jmp, op_jt, op_jf, op_add, op_mult, op_mod, op_and, op_or, op_not, op_rmem, op_wmem,
    op_call, op_ret, op_out, op_in, op_noop, Bool.false_eq_true, hc37, hc43]
  try simp
  constructor
  · repeat' split
    all_goals rfl
  · first
      | exact ⟨rfl, rfl⟩
      | (intro f hf
         repeat' split at hf
         all_goals first
           | (cases hf; done)
           | (cases hf; exact ⟨rfl, rfl⟩))

theorem iter_agree_undecodable (tok : List Nat → Except Fault (List Nat)) (v : vm)
    (inp : List Nat) (hd : v.dbgmd = false) (hp : v.pi < memSize) (hop : 21 < v.mem v.pi) :
    (standaloneIter tok v inp).map flow.view = machine (v.view false) inp ∧
    ∀ f, standaloneIter tok v inp = .ok f → f.quiet := by
  have n0 : v.mem v.pi ≠ 0 := by omega
  have n1 : v.mem v.pi ≠ 1 := by omega
  have n2 : v.mem v.pi ≠ 2 := by omega
  have n3 : v.mem v.pi ≠ 3 := by omega
  have n4 : v.mem v.pi ≠ 4 := by omega
  have n5 : v.mem v.pi ≠ 5 := by omega
  have n6 : v.mem v.pi ≠ 6 := by omega
  have n7 : v.mem v.pi ≠ 7 := by omega
  have n8 : v.mem v.pi ≠ 8 := by omega
  have n9 : v.mem v.pi ≠ 9 := by omega
  have n10 : v.mem v.pi ≠ 10 := by omega
  have n11 : v.mem v.pi ≠ 11 := by omega
  have n12 : v.mem v.pi ≠ 12 := by omega
  have n13 : v.mem v.pi ≠ 13 := by omega
  have n14 : v.mem v.pi ≠ 14 := by omega
  have n15 : v.mem v.pi ≠ 15 := by omega
  have n16 : v.mem v.pi ≠ 16 := by omega
  have n17 : v.mem v.pi ≠ 17 := by omega
  have n18 : v.mem v.pi ≠ 18 := by omega
  have n19 : v.mem v.pi ≠ 19 := by omega
  have n20 : v.mem v.pi ≠ 20 := by omega
  have n21 : v.mem v.pi ≠ 21 := by omega
  simp only [standaloneIter, machine, vm.view, hd, rd_ok _ _ hp, bind, Except.bind, pure,
    Except.pure, ↓reduceIte, op_halt, op_set, op_push, op_pop, op_eq, op_gt,
    op_jmp, op_jt, op_jf, op_add, op_mult, op_mod, op_and, op_or, op_not, op_rmem, op_wmem,
    op_call, op_ret, op_out, op_in, op_noop, Bool.false_eq_true, n0, n1, n2, n3, n4, n5, n6, n7,
    n8, n9, n10, n11, n12, n13, n14, n15, n16, n17, n18, n19, n20, n21]
  constructor
  · rfl
  · intro f hf
    cases hf

theorem iter_agree_range (tok : List Nat → Except Fault (List Nat)) (v : vm)
    (inp : List Nat) (hd : v.dbgmd = false) (hp : ¬ v.pi < memSize) :
    (standaloneIter tok v inp).map flow.view = machine (v.view false) inp ∧
    ∀ f, standaloneIter tok v inp = .ok f → f.quiet := by
  have hr := rd_err v.mem v.pi (Nat.le_of_not_lt hp)
  simp only [standaloneIter, machine, vm.view, hd, hr, bind, Except.bind, pure,
    Except.pure, ↓reduceIte, Bool.false_eq_true]
  constructor
  · rfl
  · intro f hf
    cases hf

/-- One iteration of the loop of `machine.go` and one step of `debugger.go`
agree, trace mode being off and no hook character being read. -/
theorem iter_agree (tok : List Nat → Except Fault (List Nat)) (v : vm) (inp : List Nat)
    (hd : v.dbgmd = false)
    (hh : ¬ (v.mem v.pi = op_in ∧ (inp.head? = some 37 ∨ inp.head? = some 43))) :
    (standaloneIter tok v inp).map flow.view = machine (v.view false) inp ∧
    ∀ f, standaloneIter tok v inp = .ok f → f.quiet := by
  by_cases hp : v.pi < memSize
  · by_cases hop : 21 < v.mem v.pi
    · exact iter_agree_undecodable tok v inp hd hp hop
    · by_cases hin : v.mem v.pi = op_in
      · have h37 : inp.head? ≠ some 37 := fun e => hh ⟨hin, Or.inl e⟩
        have h43 : inp.head? ≠ some 43 := fun e => hh ⟨hin, Or.inr e⟩
        exact iter_agree_in tok v inp hd hp hin h37 h43
      · have hin' : v.mem v.pi ≠ 20 := hin
        refine iter_agree_plain tok v inp hd hp _ rfl ?_
        simp only [List.mem_cons, List.mem_singleton, List.not_mem_nil, or_false]
        omega
  · exact iter_agree_range tok v inp hd hp

theorem steps_fin : ∀ (n : Nat) (s : state) (inp out : List Nat), s.fin = true →
    steps n s inp out = .ok (s, inp, out) := by
  intro n
  induction n with
  | zero => intro s inp out _; rfl
  | succ n ih =>
    intro s inp out hfin
    simp only [steps, machine_fin s inp hfin, List.append_nil]
    exact ih s inp out hfin

theorem run_agree (tok : List Nat → Except Fault (List Nat)) : ∀ (n : Nat) (v : vm)
    (inp out : List Nat), v.dbgmd = false → hookFree n (v.view false) inp = true →
    (standalone tok n v inp out).map runView = steps n (v.view false) inp out := by
  intro n
  induction n with
  | zero => intro v inp out _ _; rfl
  | succ n ih =>
    intro v inp out hd hh
    simp only [hookFree, Bool.and_eq_true, decide_eq_true_eq] at hh
    obtain ⟨hh1, hh2⟩ := hh
    have hh1' : ¬ (v.mem v.pi = op_in ∧ (inp.head? = some 37 ∨ inp.head? = some 43)) :=
      fun hc => hh1 ⟨rfl, hc⟩
    obtain ⟨heq, hq⟩ := iter_agree tok v inp hd hh1'
    cases hi : standaloneIter tok v inp with
    | error e =>
      rw [hi] at heq
      simp only [standalone, steps, hi, ← heq, Except.map]
    | ok f =>
      rw [hi] at heq
      have hquiet := hq f hi
      cases f with
      | returned v2 inp2 err =>
        simp only [standalone, steps, hi, ← heq, Except.map, flow.view, List.append_nil]
        rw [steps_fin n (v2.view true) inp2 out rfl]
        rfl
      | next v2 inp2 o err =>
        rw [← heq] at hh2
        simp only [Except.map, flow.view] at hh2
        simp only [standalone, steps, hi, ← heq, Except.map, flow.view]
        exact ih v2 inp2 (out ++ o) hquiet.1 hh2

/-- C20: the two engines agree.  For every program image `prog`, every input
`inp` and every number `n` of instructions, if none of the first `n`
instructions is an `in` that reads `%` or `+`, then `n` iterations of the loop
of `machine.go` and `n` applications of the step of `debugger.go` from the same
initial state end in the same memory, registers, stack and program counter, with
the same input left and the same output, `machine.go` having returned exactly
when the halted flag is set; and they panic at the same instruction with the
same fault.  This holds whatever the library call of the hooks does. -/
theorem engines_agree (tok : List Nat → Except Fault (List Nat)) (prog inp : List Nat)
    (n : Nat) (h : hookFree n (load prog) inp = true) :
    (standalone tok n (boot prog) inp []).map runView = steps n (load prog) inp [] :=
  run_agree tok n (boot prog) inp [] rfl h

/-- Instance of C20: on the program `in r0; out r0; halt` with the input `A`
both engines, after three instructions, have printed `A` and stopped at
program counter 5. -/
theorem engines_agree_witness :
    (standalone (fun i => .ok i) 3 (boot [20, 32768, 19, 32768, 0]) [65] []).map runView
      = steps 3 (load [20, 32768, 19, 32768, 0]) [65] [] ∧
    (steps 3 (load [20, 32768, 19, 32768, 0]) [65] []).toOption.map
      (fun r => (r.1.pi, r.1.fin, r.1.mem 32768, r.2.2)) = some (5, true, 65, [65]) :=
  ⟨engines_agree (fun i => .ok i) [20, 32768, 19, 32768, 0] [65] 3 (by decide), by decide⟩

end Synacor
